import Mathlib

/-!
Verification of the dependency-db range-overlap index (src/index.js).

Keys and packed versions are JavaScript strings; we model them as `List Char`
and compare them by code points, which coincides with JavaScript's code-unit
comparison on the characters that occur here (all below `0x100`).
-/

set_option autoImplicit false

namespace DependencyDb

/-- JavaScript strings, modelled as lists of characters. -/
abbrev Str := List Char

/-- Shorthand turning a Lean string literal into our `Str` model. -/
def str (s : String) : Str := s.toList

/-- The character `'\x00'`, the low sentinel used by the reader. -/
def nulC : Char := Char.ofNat 0

/-- The character `'\xff'`, the high sentinel used by the reader. -/
def xffC : Char := Char.ofNat 255

/-- JavaScript `a < b` on strings: lexicographic comparison by code unit. -/
def strLt : Str → Str → Bool
  | [], [] => false
  | [], _ :: _ => true
  | _ :: _, [] => false
  | a :: as, b :: bs =>
    if a.toNat < b.toNat then true
    else if a.toNat = b.toNat then strLt as bs
    else false

/-- JavaScript `a <= b` on strings (total order, so `a <= b` iff `¬ (b < a)`). -/
def strLe (a b : Str) : Bool := !(strLt b a)

/-- `strStarts p s` holds when `p` is an initial segment of `s`. -/
def strStarts : Str → Str → Bool
  | [], _ => true
  | _ :: _, [] => false
  | a :: as, b :: bs => a = b && strStarts as bs

/-- `a` precedes `b` by a strict character difference inside their common
length: the comparison is decided at a position both strings have, so it is
stable under appending arbitrary suffixes. -/
def strLtD (a b : Str) : Prop :=
  ∃ p x y s t, a = p ++ x :: s ∧ b = p ++ y :: t ∧ x.toNat < y.toNat

/-- Byte-list analogue of `strLtD`: decided by a strict byte difference at a
position inside the common length. -/
def bytesLtD (a b : List Nat) : Prop :=
  ∃ p x y s t, a = p ++ x :: s ∧ b = p ++ y :: t ∧ x < y

/-- A semantic version triple `(major, minor, patch)`; prerelease and build
metadata are ignored by the system throughout. -/
structure Sem where
  major : Nat
  minor : Nat
  patch : Nat
deriving DecidableEq, Repr

/-- Numeric tuple order on version triples. -/
def semLt (a b : Sem) : Bool :=
  decide (a.major < b.major ∨ (a.major = b.major ∧
    (a.minor < b.minor ∨ (a.minor = b.minor ∧ a.patch < b.patch))))

/-- Non-strict numeric tuple order on version triples. -/
def semLe (a b : Sem) : Bool := semLt a b || decide (a = b)

/-- `inc_patch`: the version with its patch component incremented, used to turn
inclusive upper bounds into exclusive ones (src/index.js lines 98-102, 246-268). -/
def incPatch (v : Sem) : Sem := ⟨v.major, v.minor, v.patch + 1⟩

/-! ### The packed-integer codec

`lexSemver` (src/index.js lines 307-311) delegates to the npm package
`lexicographic-integer`, which is not part of this repository.

Modelled from the spec: `P(n)` is "a hexadecimal encoding that preserves
numeric ordering under bytewise comparison (length-prefixed hex, so that
`10` sorts after `9`)".  Numbers below `251` pack to a single byte; larger
numbers pack to a length byte `250 + k` followed by the `k` big-endian
base-256 digits.  The bytes are rendered as lowercase hex.  A single length
byte accommodates numbers below `256 ^ 5`; the model is only claimed faithful
on that domain (`packBound` below). -/

/-- Big-endian base-256 digits of `n` (empty for `0`), with explicit fuel so
the kernel can evaluate it. -/
def bytesOfAux : Nat → Nat → List Nat
  | 0, _ => []
  | f + 1, n => if n = 0 then [] else bytesOfAux f (n / 256) ++ [n % 256]

/-- Big-endian base-256 digits of `n`, no leading zeros. -/
def bytesOf (n : Nat) : List Nat := bytesOfAux (n + 1) n

/-- The byte list produced by `lexicographic-integer`'s `pack`. -/
def lexiPackBytes (n : Nat) : List Nat :=
  if n < 251 then [n] else (250 + (bytesOf n).length) :: bytesOf n

/-- Lowercase hex digit for a nibble. -/
def hexDigitChar (n : Nat) : Char :=
  if n < 10 then Char.ofNat (48 + n) else Char.ofNat (87 + n)

/-- Two lowercase hex characters for a byte. -/
def byteHex (b : Nat) : Str := [hexDigitChar (b / 16), hexDigitChar (b % 16)]

/-- Hex rendering of a byte list. -/
def hexOfBytes (bs : List Nat) : Str := bs.flatMap byteHex

/-- `lexi.pack(n, 'hex')`. -/
def lexiPackHex (n : Nat) : Str := hexOfBytes (lexiPackBytes n)

/-- `lexSemver` (src/index.js lines 307-311): packed major, minor and patch
joined by `'!'`. -/
def lexSemver (v : Sem) : Str :=
  lexiPackHex v.major ++ ['!'] ++ lexiPackHex v.minor ++ ['!'] ++ lexiPackHex v.patch

/-- Capacity of a single length byte in the packed-integer scheme. -/
def packBound : Nat := 256 ^ 5

/-- The component is inside the packed-integer codec's single-length-byte
domain. -/
def natOK (n : Nat) : Bool := decide (n < packBound)

/-- All three components of the triple are packable. -/
def packOK (v : Sem) : Bool := natOK v.major && natOK v.minor && natOK v.patch

/-- Packable, with room to increment the patch component. -/
def semOK (v : Sem) : Bool := packOK v && natOK (v.patch + 1)

/-! ### Comparators, write-side encoding, read-side normalization -/

/-- Comparator operators produced by the `semver` parser as used by the code:
`unset` is the match-all operator (`undefined` in JS), `eq` is the empty-string
equality operator. -/
inductive Op where
  | unset | eq | lt | le | gt | ge
deriving DecidableEq, Repr

/-- An `(operator, version)` comparator. -/
structure Comparator where
  op : Op
  semver : Sem
deriving DecidableEq, Repr

/-- `v` satisfies the comparator, prerelease ignored. -/
def satComp (v : Sem) (c : Comparator) : Bool :=
  match c.op with
  | .unset => true
  | .eq => decide (v = c.semver)
  | .lt => semLt v c.semver
  | .le => semLe v c.semver
  | .gt => semLt c.semver v
  | .ge => semLe c.semver v

/-- `v` satisfies a conjunction of comparators. -/
def satComps (v : Sem) (cs : List Comparator) : Bool := cs.all (satComp v)

/-- The lower bound a comparator contributes on the write side
(the `set[0].push` cases of src/index.js lines 92-114). -/
def lowerOf (c : Comparator) : Option Str :=
  match c.op with
  | .unset => some (lexSemver ⟨0, 0, 0⟩)
  | .eq => some (lexSemver c.semver)
  | .gt | .ge => some (lexSemver c.semver)
  | .lt | .le => none

/-- The upper bound a comparator contributes on the write side
(the `set[1].push` cases of src/index.js lines 92-114). -/
def upperOf (c : Comparator) : Option Str :=
  match c.op with
  | .unset => none
  | .eq => some (lexSemver (incPatch c.semver))
  | .gt | .ge => none
  | .lt | .le => some (lexSemver c.semver)

/-- Write-side encoding of one conjunction group: the `(lowers, uppers)` pair
built by the comparator loop of `batchDependencies` (src/index.js lines 87-116).
The loop pushes each comparator's bounds in order, so the lists are exactly the
in-order collected bounds. -/
def encodeSet (comps : List Comparator) : List Str × List Str :=
  (comps.filterMap lowerOf, comps.filterMap upperOf)

/-- Write-side encoding of a whole range (one group per disjunct). -/
def encodeSets (sets : List (List Comparator)) : List (List Str × List Str) :=
  sets.map encodeSet

/-- One conjunction group's test inside `match` (src/index.js lines 213-229). -/
def groupOk (lquery uquery : Str) (g : List Str × List Str) : Bool :=
  if g.1.isEmpty && strLe uquery [nulC] then false
  else if g.2.isEmpty && strLe [xffC] lquery then false
  else g.1.all (fun l => strLt l uquery) && g.2.all (fun u => strLt lquery u)

/-- `match` (src/index.js lines 212-230): some stored group overlaps the query
interval. -/
def matchSets (sets : List (List Str × List Str)) (lquery uquery : Str) : Bool :=
  sets.any (groupOk lquery uquery)

/-- The string `String(comparator.operator)` would produce in JS. -/
def opStr : Op → Str
  | .unset => str "undefined"
  | .eq => []
  | .lt => str "<"
  | .le => str "<="
  | .gt => str ">"
  | .ge => str ">="

/-- `normalize` (src/index.js lines 232-281): turns the single conjunction of a
query range into `(norm[0], norm[1])`; `.error` models a thrown `Error`.
An empty comparator list would make the JS code read a property of `undefined`;
we model that crash as a thrown `TypeError` (unreachable from the parser). -/
def normalizeC : List Comparator → Except Str (Option Sem × Option Sem)
  | [] => .error (str "TypeError")
  | [lower] =>
    match lower.op with
    | .unset => .ok (none, none)
    | .eq => .ok (some lower.semver, some (incPatch lower.semver))
    | .lt => .ok (some ⟨0, 0, 0⟩, some lower.semver)
    | .le => .ok (some ⟨0, 0, 0⟩, some (incPatch lower.semver))
    | .gt => .ok (some (incPatch lower.semver), none)
    | .ge => .ok (some lower.semver, none)
  | [lower, upper] =>
    match lower.op with
    | .ge =>
      match upper.op with
      | .lt => .ok (some lower.semver, some upper.semver)
      | .le => .ok (some lower.semver, some (incPatch upper.semver))
      | o => .error (str "Unexpected upper operator: " ++ opStr o)
    | .gt =>
      match upper.op with
      | .lt => .ok (some (incPatch lower.semver), some upper.semver)
      | .le => .ok (some (incPatch lower.semver), some (incPatch upper.semver))
      | o => .error (str "Unexpected upper operator: " ++ opStr o)
    | o => .error (str "Unexpected lower operator: " ++ opStr o)
  | _ => .error (str "More than two comparators not supported")

/-- The query bounds built by `Db.prototype.query` (src/index.js lines 156-160):
`lquery` falls back to `'\x00'` and `uquery` to `'\xff'` when `normalize`
produced no bound on that side. -/
def queryBounds (comps : List Comparator) : Except Str (Str × Str) :=
  (normalizeC comps).map fun n =>
    ((n.1.map lexSemver).getD [nulC], (n.2.map lexSemver).getD [xffC])

/-! ### Database state model

The underlying LevelUP store is modelled as an association list from keys to
values (first match wins); `batch` puts, point reads, point deletes and range
scans are modelled below.  The LRU latest-version cache is an association list
from package names to versions (its capacity bound and eviction policy are not
modelled; eviction only turns cache hits into store reads of the same value). -/

/-- Decimal rendering of a natural number. -/
def natStr (n : Nat) : Str := (Nat.repr n).toList

/-- Manifest versions are modelled as canonical triples; this renders the
dotted version string that appears inside keys. -/
def vstr (v : Sem) : Str := natStr v.major ++ ['.'] ++ natStr v.minor ++ ['.'] ++ natStr v.patch

/-- Characters the JS global `escape` leaves untouched:
ASCII alphanumerics and `@ * _ + - . /`. -/
def safeChar (c : Char) : Bool :=
  decide ((48 ≤ c.toNat ∧ c.toNat ≤ 57) ∨ (65 ≤ c.toNat ∧ c.toNat ≤ 90) ∨
    (97 ≤ c.toNat ∧ c.toNat ≤ 122) ∨
    c.toNat = 64 ∨ c.toNat = 42 ∨ c.toNat = 95 ∨ c.toNat = 43 ∨
    c.toNat = 45 ∨ c.toNat = 46 ∨ c.toNat = 47)

/-- Uppercase hex digit for a nibble, as produced by the JS global `escape`. -/
def hexUp (n : Nat) : Char :=
  if n < 10 then Char.ofNat (48 + n) else Char.ofNat (55 + n)

/-- Four uppercase hex digits for a 16-bit value. -/
def hex4 (n : Nat) : Str :=
  [hexUp (n / 4096 % 16), hexUp (n / 256 % 16), hexUp (n / 16 % 16), hexUp (n % 16)]

/-- The JS global `escape` on one character.  JS operates on UTF-16 code
units, so a code point at or above `0x10000` escapes as its surrogate pair. -/
def escChar (c : Char) : Str :=
  if safeChar c then [c]
  else if c.toNat < 256 then ['%', hexUp (c.toNat / 16), hexUp (c.toNat % 16)]
  else if c.toNat < 65536 then ['%', 'u'] ++ hex4 c.toNat
  else ['%', 'u'] ++ hex4 (55296 + (c.toNat - 65536) / 1024) ++
       ['%', 'u'] ++ hex4 (56320 + (c.toNat - 65536) % 1024)

/-- The JS global `escape`, used by the code to keep `'!'` out of name
fragments inside keys (src/index.js lines 37, 66, 76, 118, 140). -/
def escapeName (s : Str) : Str := s.flatMap escChar

/-- Value of an uppercase hex digit (inverse of `hexUp` on `[0, 16)`). -/
def hexVal (c : Char) : Nat := if c.toNat ≤ 57 then c.toNat - 48 else c.toNat - 55

/-- Decoder for `escChar`'s output, used to establish that `escapeName` is
injective: it parses back exactly one escaped character. -/
def unescChar : Str → Option (Char × Str)
  | [] => none
  | c :: r =>
    if c ≠ '%' then some (c, r)
    else
      match r with
      | u :: r1 =>
        if u ≠ 'u' then
          match r1 with
          | b :: r2 => some (Char.ofNat (16 * hexVal u + hexVal b), r2)
          | [] => none
        else
          match r1 with
          | a :: b :: d :: e :: r2 =>
            let n := 4096 * hexVal a + 256 * hexVal b + 16 * hexVal d + hexVal e
            if 55296 ≤ n ∧ n ≤ 56319 then
              match r2 with
              | p2 :: u2 :: a2 :: b2 :: d2 :: e2 :: r3 =>
                if p2 = '%' ∧ u2 = 'u' then
                  some (Char.ofNat (65536 + (n - 55296) * 1024 +
                    (4096 * hexVal a2 + 256 * hexVal b2 + 16 * hexVal d2 +
                      hexVal e2 - 56320)), r3)
                else none
              | _ => none
            else some (Char.ofNat n, r2)
          | _ => none
      | [] => none

/-- A stored encoded range: one `(lowers, uppers)` group per disjunct. -/
abbrev EncSets := List (List Str × List Str)

/-- A package manifest.  Dependency ranges are carried as their parse outcome:
`none` models a range string `semver.Range` rejects, `some sets` the parsed
disjunction of conjunctions of comparators. -/
structure Manifest where
  name : Str
  version : Sem
  dependencies : List (Str × Option (List (List Comparator)))
  devDependencies : List (Str × Option (List (List Comparator)))
deriving DecidableEq, Repr

/-- A value in the key-value store: a manifest document, a latest-version
string, a per-version encoded range, or a latest-index record. -/
inductive Value where
  | manifest (m : Manifest)
  | version (v : Sem)
  | encoded (sets : EncSets)
  | latestRec (version : Sem) (sets : EncSets)
deriving DecidableEq, Repr

/-- The key-value store: an association list, first match wins. -/
abbrev Store := List (Str × Value)

/-- Association-list lookup (first match wins). -/
def alGet {β : Type} (k : Str) : List (Str × β) → Option β
  | [] => none
  | (k', v) :: t => if k' = k then some v else alGet k t

/-- Remove every binding of `k`. -/
def alErase {β : Type} (k : Str) (l : List (Str × β)) : List (Str × β) :=
  l.filter (fun p => p.1 ≠ k)

/-- Insert or replace the binding of `k`. -/
def alPut {β : Type} (k : Str) (v : β) (l : List (Str × β)) : List (Str × β) :=
  (k, v) :: alErase k l

/-- Apply an atomic batch of puts in order (later puts win). -/
def applyBatch (s : Store) (ops : List (Str × Value)) : Store :=
  ops.foldl (fun s p => alPut p.1 p.2 s) s

/-- The full database state: the store plus the in-process latest-version
cache. -/
structure DbState where
  store : Store
  cache : List (Str × Sem)
deriving DecidableEq, Repr

/-- The latest-version cache is coherent with the store: every cache entry
matches the corresponding `!latest-version!` key.  This holds in every state
reachable from an empty database, because `store` writes both together. -/
def coherentB (st : DbState) : Bool :=
  st.cache.all fun p =>
    decide (alGet (str "!latest-version!" ++ escapeName p.1) st.store = some (.version p.2))

/-- `semverGt` (src/index.js lines 207-210).  The `semver-compare` package is
not part of this repository; modelled from the spec: "a lexicographic-safe
bignum-aware comparison (standard numeric compare on arbitrarily large version
components — not floating)", on the canonical triples. -/
def semverGt (a b : Sem) : Bool := semLt b a

/-- `Db.prototype._getLatestVersion` (src/index.js lines 59-72): consult the
cache first, fall back to the `!latest-version!` key (a `notFound` read yields
no version).  A stored value of a different shape is treated as no version. -/
def getLatestVersion (st : DbState) (name : Str) : Option Sem :=
  match alGet name st.cache with
  | some v => some v
  | none =>
    match alGet (str "!latest-version!" ++ escapeName name) st.store with
    | some (.version v) => some v
    | _ => none

/-- The per-version index key `!index!<kind>!<dep>!<dependent>@<version>`. -/
def ixKey (kind : Str) (dep : Str) (pkg : Manifest) : Str :=
  str "!index!" ++ kind ++ ['!'] ++ escapeName dep ++ ['!'] ++
    escapeName pkg.name ++ ['@'] ++ vstr pkg.version

/-- The latest index key `!index-latest!<kind>!<dep>!<dependent>`. -/
def ixLatestKey (kind : Str) (dep : Str) (pkg : Manifest) : Str :=
  str "!index-latest!" ++ kind ++ ['!'] ++ escapeName dep ++ ['!'] ++ escapeName pkg.name

/-- `batchDependencies` (src/index.js lines 74-130): for each dependency whose
range parses, a per-version index put, plus a latest index put when the
manifest is the latest. -/
def batchDependencies (pkg : Manifest)
    (deps : List (Str × Option (List (List Comparator)))) (deptype : Str)
    (isLatest : Bool) : List (Str × Value) :=
  deps.flatMap fun p =>
    match p.2 with
    | none => []
    | some sets =>
      (ixKey deptype p.1 pkg, .encoded (encodeSets sets)) ::
        (if isLatest then [(ixLatestKey deptype p.1 pkg, .latestRec pkg.version (encodeSets sets))]
         else [])

/-- The `isLatest` decision inside `Db.prototype.store` (src/index.js line 36). -/
def storeIsLatest (st : DbState) (pkg : Manifest) : Bool :=
  match getLatestVersion st pkg.name with
  | none => true
  | some latest => semverGt pkg.version latest

/-- The manifest-by-version key `!pkg!<name>@<version>`. -/
def pkgKey (pkg : Manifest) : Str :=
  str "!pkg!" ++ escapeName pkg.name ++ ['@'] ++ vstr pkg.version

/-- `Db.prototype.store` (src/index.js lines 30-57), successful-commit path:
build the batch, apply it atomically, update the cache when latest. -/
def storeOp (st : DbState) (pkg : Manifest) : DbState :=
  let isLatest := storeIsLatest st pkg
  let dependent := escapeName pkg.name
  let batch :=
    batchDependencies pkg pkg.dependencies (str "dep") isLatest ++
    batchDependencies pkg pkg.devDependencies (str "dev") isLatest ++
    [(pkgKey pkg, .manifest pkg)] ++
    (if isLatest then
      [(str "!pkg-latest!" ++ dependent, .manifest pkg),
       (str "!latest-version!" ++ dependent, .version pkg.version)]
     else [])
  ⟨applyBatch st.store batch,
   if isLatest then alPut pkg.name pkg.version st.cache else st.cache⟩

/-! ### The query engine -/

/-- `data.key.substr(data.key.lastIndexOf('!') + 1)` (src/index.js line 171). -/
def afterLastBang (s : Str) : Str :=
  (s.reverse.takeWhile (fun c => c ≠ '!')).reverse

/-- Insert a key into an ascending list of keys. -/
def insertSorted (k : Str) : List Str → List Str
  | [] => [k]
  | h :: t => if strLt k h then k :: h :: t else h :: insertSorted k t

/-- Sort keys ascending by code-unit order. -/
def sortKeys (l : List Str) : List Str := l.foldr insertSorted []

/-- `createReadStream({gt, lt, limit})`: the records with `lo < key < hi` in
ascending key order, truncated to `limit` when one is given. -/
def scanRecords (s : Store) (lo hi : Str) (lim : Option Nat) : List (Str × Value) :=
  let ks := sortKeys (((s.map Prod.fst).dedup).filter (fun k => strLt lo k && strLt k hi))
  let ks := match lim with | none => ks | some n => ks.take n
  ks.filterMap fun k => (alGet k s).map (fun v => (k, v))

/-- Options of `Db.prototype.query`.  `limit` is `none` for the default `-1`
(unlimited); `gtOpt` is the resume cursor. -/
structure QueryOpts where
  all : Bool
  devDependencies : Bool
  gtOpt : Option Str
  limit : Option Nat
deriving Repr

/-- The default options object. -/
def QueryOpts.default : QueryOpts := ⟨false, false, none, none⟩

/-- The fetch / re-validate / lazy-cleanup phase of the transform stream
(src/index.js lines 171-198), run once a record has passed the overlap
filter. -/
def recordStep2 (all dev : Bool) (ename : Str) (s : Store) (r : Str × Value) :
    Except Str (Option Manifest × Store) :=
  let dependent := afterLastBang r.1
  let pkey := (if all then str "!pkg!" else str "!pkg-latest!") ++ dependent
  match alGet pkey s with
  | none => .error (str "NotFoundError")
  | some (.manifest pkg) =>
    if all then .ok (some pkg, s)
    else
      let deps := if dev then pkg.devDependencies else pkg.dependencies
      if (alGet ename deps).isSome then .ok (some pkg, s)
      else
        match alGet (str "!latest-version!" ++ dependent) s with
        | none => .error (str "NotFoundError")
        | some w =>
          if w = .version pkg.version then .ok (none, alErase r.1 s)
          else .ok (none, s)
  | some _ => .error (str "TypeError")

/-- One record of the query's transform stream (src/index.js lines 163-200):
either a stream error (`.error`), or an optional emission together with the
store after any lazy-cleanup delete.  A JS type failure on a malformed stored
value is modelled as a stream error. -/
def processRecord (all dev : Bool) (ename : Str) (bnds : Option (Str × Str))
    (s : Store) (r : Str × Value) : Except Str (Option Manifest × Store) :=
  match bnds with
  | none => recordStep2 all dev ename s r
  | some (l, u) =>
    let setsO : Option EncSets :=
      if all then (match r.2 with | .encoded e => some e | _ => none)
      else (match r.2 with | .latestRec _ e => some e | _ => none)
    match setsO with
    | none => .error (str "TypeError")
    | some sets => if matchSets sets l u then recordStep2 all dev ename s r
                   else .ok (none, s)

/-- Run the transform stream over the scan records, threading the store and
collecting emissions; an error aborts the stream and the collector yields no
results (stream-collector calls back with the error alone). -/
def runRecords (all dev : Bool) (ename : Str) (bnds : Option (Str × Str)) :
    Store → List (Str × Value) → Except Str (List Manifest) × Store
  | s, [] => (.ok [], s)
  | s, r :: rs =>
    match processRecord all dev ename bnds s r with
    | .error m => (.error m, s)
    | .ok (em, s') =>
      match runRecords all dev ename bnds s' rs with
      | (.ok ms, sf) => (.ok (em.toList ++ ms), sf)
      | e => e

/-- Whether a scan record passes the in-memory overlap filter: wildcard
queries pass everything, otherwise the stored per-version value must be an
encoded range matching the bounds. -/
def recPasses (bnds : Option (Str × Str)) (r : Str × Value) : Bool :=
  match bnds with
  | none => true
  | some (l, u) => match r.2 with | .encoded e => matchSets e l u | _ => false

/-- The manifest a per-version scan record resolves to: the `!pkg!` document
of the dependent token after the key's last `'!'`. -/
def fetchAll (s : Store) (r : Str × Value) : Option Manifest :=
  match alGet (str "!pkg!" ++ afterLastBang r.1) s with
  | some (.manifest p) => some p
  | _ => none

/-- Outcome of a `query` call: a synchronous throw, an error delivered through
the stream/callback, or the collected manifests. -/
inductive QOutcome where
  | thrown (msg : Str)
  | failed (msg : Str)
  | ok (pkgs : List Manifest)
deriving DecidableEq, Repr

/-- Result of a `query` call: its outcome plus the database state afterwards
(cleanup deletes persist even when the stream later errors). -/
structure QueryResult where
  outcome : QOutcome
  state : DbState
deriving DecidableEq, Repr

/-- `Db.prototype.query` (src/index.js lines 132-205).  The range argument
arrives already parsed: `qsets` is `semver.Range(range).set` and `wildcard`
is `range.range === ''` (true exactly for `'*'`, `'x'` and `''`). -/
def queryRun (st : DbState) (name : Str) (qsets : List (List Comparator))
    (wildcard : Bool) (opts : QueryOpts) : QueryResult :=
  let ename := escapeName name
  let keyFront := (if opts.all then str "!index!" else str "!index-latest!") ++
    (if opts.devDependencies then str "dev!" else str "dep!")
  let lo := keyFront ++ ename ++ ['!'] ++ opts.gtOpt.getD []
  let hi := keyFront ++ ename ++ ['!', xffC]
  let recs := scanRecords st.store lo hi opts.limit
  match qsets with
  | [comps] =>
    let bndsE : Except Str (Option (Str × Str)) :=
      if wildcard then .ok none else (queryBounds comps).map some
    match bndsE with
    | .error m => ⟨.thrown m, st⟩
    | .ok bnds =>
      match runRecords opts.all opts.devDependencies ename bnds st.store recs with
      | (.ok ms, s') => ⟨.ok ms, ⟨s', st.cache⟩⟩
      | (.error m, s') => ⟨.failed m, ⟨s', st.cache⟩⟩
  | _ => ⟨.thrown (str "OR-range queries not supported"), st⟩

/-- Concrete one-package fixture: `a@1.0.0` depending on `b` via `>=1.0.0`. -/
def fixPkg : Manifest := ⟨str "a", ⟨1, 0, 0⟩, [(str "b", some [[⟨Op.ge, ⟨1, 0, 0⟩⟩]])], []⟩

/-- Concrete store holding the fixture's per-version index record and manifest. -/
def fixStore : Store :=
  [(ixKey (str "dep") (str "b") fixPkg, .encoded (encodeSets [[⟨Op.ge, ⟨1, 0, 0⟩⟩]])),
   (pkgKey fixPkg, .manifest fixPkg)]

/-! ## Lemmas: characters and string order -/

theorem char_toNat_inj {a b : Char} (h : a.toNat = b.toNat) : a = b := by
  apply Char.eq_of_val_eq
  apply UInt32.ext
  simpa [Char.toNat] using h

theorem char_toNat_ofNat {m : Nat} (h : m < 55296) : (Char.ofNat m).toNat = m := by
  have hv : m.isValidChar := Or.inl h
  rw [Char.ofNat, dif_pos hv]
  simp [Char.ofNatAux, Char.toNat, UInt32.toNat, BitVec.toNat_ofNatLt]

theorem strLt_append_left (p a b : Str) : strLt (p ++ a) (p ++ b) = strLt a b := by
  induction p with
  | nil => rfl
  | cons c p ih => simp [strLt, ih]

theorem strLt_irrefl (a : Str) : strLt a a = false := by
  induction a with
  | nil => rfl
  | cons c a ih => simp [strLt, ih]

theorem strLtD_append {a b : Str} (h : strLtD a b) (s t : Str) :
    strLt (a ++ s) (b ++ t) = true := by
  obtain ⟨p, x, y, s', t', rfl, rfl, hxy⟩ := h
  rw [List.append_assoc, List.append_assoc, List.cons_append, List.cons_append,
    strLt_append_left]
  simp [strLt, hxy]

theorem strLtD_strLt {a b : Str} (h : strLtD a b) : strLt a b = true := by
  simpa using strLtD_append h [] []

theorem strLtD_asymm {a b : Str} (h : strLtD a b) : strLt b a = false := by
  obtain ⟨p, x, y, s', t', rfl, rfl, hxy⟩ := h
  rw [strLt_append_left]
  simp only [strLt]
  rw [if_neg (by omega), if_neg (by omega)]

theorem strLtD_cons {x y : Char} (s t : Str) (h : x.toNat < y.toNat) :
    strLtD (x :: s) (y :: t) := ⟨[], x, y, s, t, rfl, rfl, h⟩

theorem strLtD_extend {p a b : Str} (h : strLtD a b) : strLtD (p ++ a) (p ++ b) := by
  obtain ⟨q, x, y, s, t, rfl, rfl, hxy⟩ := h
  exact ⟨p ++ q, x, y, s, t, by simp, by simp, hxy⟩

theorem strLtD_append_right {a b : Str} (s t : Str) (h : strLtD a b) :
    strLtD (a ++ s) (b ++ t) := by
  obtain ⟨q, x, y, s', t', rfl, rfl, hxy⟩ := h
  exact ⟨q, x, y, s' ++ s, t' ++ t, by simp, by simp, hxy⟩

theorem strStarts_self_append (p t : Str) : strStarts p (p ++ t) = true := by
  induction p with
  | nil => rfl
  | cons c p ih => simp [strStarts, ih]

theorem strStarts_exists {p s : Str} (h : strStarts p s = true) : ∃ t, s = p ++ t := by
  induction p generalizing s with
  | nil => exact ⟨s, rfl⟩
  | cons c p ih =>
    cases s with
    | nil => simp [strStarts] at h
    | cons d s =>
      simp only [strStarts, Bool.and_eq_true, decide_eq_true_eq] at h
      obtain ⟨t, rfl⟩ := ih h.2
      exact ⟨t, by simp [h.1]⟩

theorem strStarts_trans {a b c : Str} (h1 : strStarts a b = true)
    (h2 : strStarts b c = true) : strStarts a c = true := by
  obtain ⟨t, rfl⟩ := strStarts_exists h1
  obtain ⟨t', rfl⟩ := strStarts_exists h2
  rw [List.append_assoc]
  exact strStarts_self_append a (t ++ t')

theorem strStarts_of_bounds {q : Str} {c : Char} :
    ∀ {g k : Str}, strLt (q ++ g) k = true → strLt k (q ++ [c]) = true →
      strStarts q k = true := by
  induction q with
  | nil => intro g k _ _; rfl
  | cons a q ih =>
    intro g k h1 h2
    cases k with
    | nil => simp [strLt] at h1
    | cons b k' =>
      simp only [List.cons_append, strLt] at h1 h2
      by_cases hab : a.toNat < b.toNat
      · rw [if_neg (by omega), if_neg (by omega)] at h2
        exact absurd h2 (by simp)
      · by_cases hba : b.toNat < a.toNat
        · rw [if_neg (by omega), if_neg (by omega)] at h1
          exact absurd h1 (by simp)
        · have hEq : a.toNat = b.toNat := by omega
          rw [if_neg (by omega), if_pos hEq] at h1
          rw [if_neg (by omega), if_pos hEq.symm] at h2
          have : a = b := char_toNat_inj hEq
          simp [strStarts, this, ih h1 h2]

theorem strStarts_mutual {a b k : Str} (h1 : strStarts a k = true)
    (h2 : strStarts b k = true) (hl : a.length ≤ b.length) :
    strStarts a b = true := by
  induction a generalizing b k with
  | nil => rfl
  | cons x a' ih =>
    cases b with
    | nil => simp at hl
    | cons y b' =>
      cases k with
      | nil => simp [strStarts] at h1
      | cons z k' =>
        simp only [strStarts, Bool.and_eq_true, decide_eq_true_eq] at h1 h2 ⊢
        refine ⟨h1.1.trans h2.1.symm, ih h1.2 h2.2 (by simpa using hl)⟩

theorem ne_of_starts_incompat {a b x y : Str} (hx : strStarts a x = true)
    (hy : strStarts b y = true) (hab : strStarts a b = false)
    (hba : strStarts b a = false) : x ≠ y := by
  rintro rfl
  rcases Nat.le_total a.length b.length with h | h
  · exact absurd (strStarts_mutual hx hy h) (by simp [hab])
  · exact absurd (strStarts_mutual hy hx h) (by simp [hba])

/-! ## Lemmas: the packed-integer codec -/

theorem bytesOfAux_zero (f : Nat) : bytesOfAux f 0 = [] := by
  cases f <;> simp [bytesOfAux]

theorem bytesOf_zero : bytesOf 0 = [] := rfl

theorem bytesOfAux_fuel : ∀ {f g n : Nat}, n ≤ f → n ≤ g →
    bytesOfAux f n = bytesOfAux g n := by
  intro f
  induction f with
  | zero =>
    intro g n hf _
    have : n = 0 := by omega
    subst this
    simp [bytesOfAux_zero]
  | succ f ih =>
    intro g n hf hg
    rcases Nat.eq_zero_or_pos n with rfl | hn
    · simp [bytesOfAux_zero]
    · cases g with
      | zero => omega
      | succ g =>
        simp only [bytesOfAux, if_neg (by omega : ¬ n = 0)]
        have hd : n / 256 < n := Nat.div_lt_self hn (by norm_num)
        rw [ih (show n / 256 ≤ f by omega) (show n / 256 ≤ g by omega)]

theorem bytesOf_eq (n : Nat) :
    bytesOf n = if n = 0 then [] else bytesOf (n / 256) ++ [n % 256] := by
  rcases Nat.eq_zero_or_pos n with rfl | hn
  · simp [bytesOf_zero]
  · rw [if_neg (by omega)]
    have hd : n / 256 < n := Nat.div_lt_self hn (by norm_num)
    have h2 : bytesOf n = bytesOfAux n (n / 256) ++ [n % 256] := by
      show bytesOfAux (n + 1) n = _
      simp [bytesOfAux, if_neg (by omega : ¬ n = 0)]
    rw [h2, bytesOfAux_fuel (by omega) (Nat.le_succ (n / 256))]
    rfl

theorem bytesOf_ne_nil {n : Nat} (hn : 0 < n) : bytesOf n ≠ [] := by
  rw [bytesOf_eq, if_neg (by omega)]
  simp

theorem bytesOf_lt256 : ∀ n, ∀ b ∈ bytesOf n, b < 256 := by
  intro n
  induction n using Nat.strong_induction_on with
  | _ n ih =>
    intro b hb
    rcases Nat.eq_zero_or_pos n with rfl | hn
    · simp [bytesOf_zero] at hb
    · rw [bytesOf_eq, if_neg (by omega)] at hb
      rcases List.mem_append.mp hb with h | h
      · exact ih (n / 256) (Nat.div_lt_self hn (by norm_num)) b h
      · simp only [List.mem_singleton] at h
        subst h
        exact Nat.mod_lt n (by norm_num)

theorem bytesOf_len_mono : ∀ n m, m ≤ n →
    (bytesOf m).length ≤ (bytesOf n).length := by
  intro n
  induction n using Nat.strong_induction_on with
  | _ n ih =>
    intro m hm
    rcases Nat.eq_zero_or_pos m with rfl | hmp
    · simp [bytesOf_zero]
    · have hn : 0 < n := lt_of_lt_of_le hmp hm
      rw [bytesOf_eq m, if_neg (by omega), bytesOf_eq n, if_neg (by omega)]
      simp only [List.length_append, List.length_singleton]
      have := ih (n / 256) (Nat.div_lt_self hn (by norm_num)) (m / 256)
        (Nat.div_le_div_right hm)
      omega

theorem bytesOf_len_le {n k : Nat} (h : n < 256 ^ k) : (bytesOf n).length ≤ k := by
  induction k generalizing n with
  | zero =>
    have : n = 0 := by omega
    subst this
    simp [bytesOf_zero]
  | succ k ih =>
    rcases Nat.eq_zero_or_pos n with rfl | hn
    · simp [bytesOf_zero]
    · rw [bytesOf_eq, if_neg (by omega)]
      simp only [List.length_append, List.length_singleton]
      have hd : n / 256 < 256 ^ k := by
        rw [Nat.div_lt_iff_lt_mul (by norm_num)]
        calc n < 256 ^ (k + 1) := h
        _ = 256 ^ k * 256 := by ring
      have := ih hd
      omega

theorem bytesOf_ltD : ∀ n m, m < n → (bytesOf m).length = (bytesOf n).length →
    bytesLtD (bytesOf m) (bytesOf n) := by
  intro n
  induction n using Nat.strong_induction_on with
  | _ n ih =>
    intro m hmn hlen
    have hn : 0 < n := by omega
    rcases Nat.eq_zero_or_pos m with rfl | hmp
    · exfalso
      rw [bytesOf_zero] at hlen
      simp only [List.length_nil] at hlen
      exact bytesOf_ne_nil hn (List.length_eq_zero.mp hlen.symm)
    · rw [bytesOf_eq m, if_neg (by omega)] at hlen ⊢
      rw [bytesOf_eq n, if_neg (by omega)] at hlen ⊢
      simp only [List.length_append, List.length_singleton] at hlen
      have hlen' : (bytesOf (m / 256)).length = (bytesOf (n / 256)).length := by omega
      have hdivle : m / 256 ≤ n / 256 := Nat.div_le_div_right (le_of_lt hmn)
      rcases lt_or_eq_of_le hdivle with hdlt | hdeq
      · obtain ⟨p, x, y, s, t, h1, h2, hxy⟩ :=
          ih (n / 256) (Nat.div_lt_self (by omega) (by norm_num)) (m / 256) hdlt hlen'
        exact ⟨p, x, y, s ++ [m % 256], t ++ [n % 256], by simp [h1], by simp [h2], hxy⟩
      · rw [hdeq]
        refine ⟨bytesOf (n / 256), m % 256, n % 256, [], [], rfl, rfl, ?_⟩
        have e1 := Nat.div_add_mod m 256
        have e2 := Nat.div_add_mod n 256
        omega

theorem lexiPackBytes_lt256 {n : Nat} (h : n < packBound) :
    ∀ b ∈ lexiPackBytes n, b < 256 := by
  intro b hb
  unfold lexiPackBytes at hb
  split at hb
  · simp only [List.mem_singleton] at hb
    omega
  · rcases List.mem_cons.mp hb with rfl | hmem
    · have := bytesOf_len_le (k := 5) h
      omega
    · exact bytesOf_lt256 n b hmem

theorem lexiPackBytes_ltD {m n : Nat} (hmn : m < n) (_hn : n < packBound) :
    bytesLtD (lexiPackBytes m) (lexiPackBytes n) := by
  unfold lexiPackBytes
  by_cases hm251 : m < 251
  · by_cases hn251 : n < 251
    · rw [if_pos hm251, if_pos hn251]
      exact ⟨[], m, n, [], [], rfl, rfl, hmn⟩
    · rw [if_pos hm251, if_neg hn251]
      have hne := bytesOf_ne_nil (show 0 < n by omega)
      have hlen : 0 < (bytesOf n).length := List.length_pos.mpr hne
      exact ⟨[], m, 250 + (bytesOf n).length, [], bytesOf n, rfl, rfl, by omega⟩
  · have hn251 : ¬ n < 251 := by omega
    rw [if_neg hm251, if_neg hn251]
    have hlenle : (bytesOf m).length ≤ (bytesOf n).length :=
      bytesOf_len_mono n m (le_of_lt hmn)
    rcases lt_or_eq_of_le hlenle with hlt | heq
    · exact ⟨[], 250 + (bytesOf m).length, 250 + (bytesOf n).length,
        bytesOf m, bytesOf n, rfl, rfl, by omega⟩
    · obtain ⟨p, x, y, s, t, h1, h2, hxy⟩ := bytesOf_ltD n m hmn heq
      rw [heq]
      exact ⟨(250 + (bytesOf n).length) :: p, x, y, s, t, by simp [h1],
        by simp [h2], hxy⟩

theorem hexDigitChar_toNat {n : Nat} (h : n < 16) :
    (hexDigitChar n).toNat = if n < 10 then 48 + n else 87 + n := by
  unfold hexDigitChar
  split <;> rw [char_toNat_ofNat (by omega)]

theorem hexDigitChar_mono {a b : Nat} (hb : b < 16) (hab : a < b) :
    (hexDigitChar a).toNat < (hexDigitChar b).toNat := by
  rw [hexDigitChar_toNat (by omega), hexDigitChar_toNat hb]
  split_ifs <;> omega

theorem byteHex_ltD {x y : Nat} (hy : y < 256) (hxy : x < y) :
    strLtD (byteHex x) (byteHex y) := by
  unfold byteHex
  have hx16 : x / 16 ≤ y / 16 := Nat.div_le_div_right (le_of_lt hxy)
  rcases lt_or_eq_of_le hx16 with hlt | heq
  · exact ⟨[], _, _, _, _, rfl, rfl,
      hexDigitChar_mono (Nat.div_lt_iff_lt_mul (by norm_num) |>.mpr (by omega)) hlt⟩
  · rw [heq]
    have hmod : x % 16 < y % 16 := by
      have e1 := Nat.div_add_mod x 16
      have e2 := Nat.div_add_mod y 16
      omega
    exact ⟨[hexDigitChar (y / 16)], _, _, _, _, rfl, rfl,
      hexDigitChar_mono (Nat.mod_lt y (by norm_num)) hmod⟩

theorem hexOfBytes_cons (b : Nat) (bs : List Nat) :
    hexOfBytes (b :: bs) = byteHex b ++ hexOfBytes bs := by
  simp [hexOfBytes]

theorem hexOfBytes_append (a b : List Nat) :
    hexOfBytes (a ++ b) = hexOfBytes a ++ hexOfBytes b := by
  simp [hexOfBytes]

theorem hexOfBytes_ltD {a b : List Nat} (hb : ∀ x ∈ b, x < 256)
    (h : bytesLtD a b) : strLtD (hexOfBytes a) (hexOfBytes b) := by
  obtain ⟨p, x, y, s, t, rfl, rfl, hxy⟩ := h
  rw [hexOfBytes_append, hexOfBytes_append, hexOfBytes_cons, hexOfBytes_cons]
  apply strLtD_extend
  apply strLtD_append_right
  exact byteHex_ltD (hb y (by simp)) hxy

theorem lexiPackHex_ltD {m n : Nat} (hmn : m < n) (hn : n < packBound) :
    strLtD (lexiPackHex m) (lexiPackHex n) :=
  hexOfBytes_ltD (lexiPackBytes_lt256 hn) (lexiPackBytes_ltD hmn hn)

theorem sem_eq_iff {a b : Sem} :
    a = b ↔ (a.major = b.major ∧ a.minor = b.minor ∧ a.patch = b.patch) := by
  cases a; cases b; simp

theorem semLt_iff {a b : Sem} : semLt a b = true ↔
    (a.major < b.major ∨ (a.major = b.major ∧
      (a.minor < b.minor ∨ (a.minor = b.minor ∧ a.patch < b.patch)))) := by
  simp [semLt]

theorem semLe_iff {a b : Sem} : semLe a b = true ↔
    (a.major < b.major ∨ (a.major = b.major ∧
      (a.minor < b.minor ∨ (a.minor = b.minor ∧ a.patch ≤ b.patch)))) := by
  simp only [semLe, Bool.or_eq_true, semLt_iff, decide_eq_true_eq, sem_eq_iff]
  omega

theorem packOK_iff {v : Sem} : packOK v = true ↔
    (v.major < packBound ∧ v.minor < packBound ∧ v.patch < packBound) := by
  simp [packOK, natOK, and_assoc]

theorem semOK_packOK {v : Sem} (h : semOK v = true) : packOK v = true := by
  simp only [semOK, Bool.and_eq_true] at h
  exact h.1

theorem semOK_packOK_inc {v : Sem} (h : semOK v = true) :
    packOK (incPatch v) = true := by
  simp only [semOK, Bool.and_eq_true, natOK, decide_eq_true_eq] at h
  rcases h with ⟨h1, h2⟩
  rw [packOK_iff] at h1 ⊢
  exact ⟨h1.1, h1.2.1, h2⟩

theorem lexSemver_shape (v : Sem) : lexSemver v =
    lexiPackHex v.major ++ ('!' :: (lexiPackHex v.minor ++ ('!' :: lexiPackHex v.patch))) := by
  simp [lexSemver]

theorem lexSemver_ltD {v w : Sem} (hw : packOK w = true) (hvw : semLt v w = true) :
    strLtD (lexSemver v) (lexSemver w) := by
  rw [packOK_iff] at hw
  rw [semLt_iff] at hvw
  rw [lexSemver_shape, lexSemver_shape]
  rcases hvw with h | ⟨he1, h⟩
  · exact strLtD_append_right _ _ (lexiPackHex_ltD h hw.1)
  · rw [he1]
    apply strLtD_extend
    show strLtD (['!'] ++ (lexiPackHex v.minor ++ ('!' :: lexiPackHex v.patch)))
      (['!'] ++ (lexiPackHex w.minor ++ ('!' :: lexiPackHex w.patch)))
    apply strLtD_extend
    rcases h with h | ⟨he2, h⟩
    · exact strLtD_append_right _ _ (lexiPackHex_ltD h hw.2.1)
    · rw [he2]
      apply strLtD_extend
      show strLtD (['!'] ++ lexiPackHex v.patch) (['!'] ++ lexiPackHex w.patch)
      apply strLtD_extend
      exact lexiPackHex_ltD h hw.2.2

theorem lexiPackBytes_head {n : Nat} :
    ∃ b bs, lexiPackBytes n = b :: bs := by
  unfold lexiPackBytes
  split
  · exact ⟨n, [], rfl⟩
  · exact ⟨_, _, rfl⟩

theorem lexSemver_head {v : Sem} (hv : packOK v = true) :
    ∃ c cs, lexSemver v = c :: cs ∧ 47 < c.toNat ∧ c.toNat < 103 := by
  rw [packOK_iff] at hv
  obtain ⟨b, bs, hb⟩ := lexiPackBytes_head (n := v.major)
  have hb256 : b < 256 := lexiPackBytes_lt256 (show v.major < packBound from hv.1) b (by rw [hb]; simp)
  have hshape : lexSemver v = hexDigitChar (b / 16) ::
      ((hexDigitChar (b % 16) :: hexOfBytes bs) ++
        ('!' :: (lexiPackHex v.minor ++ ('!' :: lexiPackHex v.patch)))) := by
    rw [lexSemver_shape]
    unfold lexiPackHex
    rw [hb, hexOfBytes_cons]
    simp [byteHex]
  refine ⟨_, _, hshape, ?_, ?_⟩
  · rw [hexDigitChar_toNat (by omega)]
    split_ifs <;> omega
  · rw [hexDigitChar_toNat (by omega)]
    split_ifs <;> omega

theorem nulC_toNat : nulC.toNat = 0 := by
  rw [nulC, char_toNat_ofNat (by norm_num)]

theorem xffC_toNat : xffC.toNat = 255 := by
  rw [xffC, char_toNat_ofNat (by norm_num)]

theorem strLt_nul_lexSemver {v : Sem} (hv : packOK v = true) :
    strLt [nulC] (lexSemver v) = true := by
  obtain ⟨c, cs, hc, hlo, _⟩ := lexSemver_head hv
  rw [hc]
  simp only [strLt]
  rw [if_pos (by rw [nulC_toNat]; omega)]

theorem strLt_lexSemver_xff {v : Sem} (hv : packOK v = true) :
    strLt (lexSemver v) [xffC] = true := by
  obtain ⟨c, cs, hc, _, hhi⟩ := lexSemver_head hv
  rw [hc]
  simp only [strLt]
  rw [if_pos (by rw [xffC_toNat]; omega)]

theorem strLt_nul_xff : strLt [nulC] [xffC] = true := by
  simp only [strLt]
  rw [if_pos (by rw [nulC_toNat, xffC_toNat]; omega)]

/-! ## Claim C4: the overlap test -/

theorem groupOk_iff (L U : Str) (g : List Str × List Str) :
    groupOk L U g = true ↔
      (¬(g.2 = [] ∧ strLe [xffC] L = true) ∧ ¬(g.1 = [] ∧ strLe U [nulC] = true) ∧
        (∀ l ∈ g.1, strLt l U = true) ∧ (∀ u ∈ g.2, strLt L u = true)) := by
  unfold groupOk
  split_ifs with c1 c2
  · simp only [Bool.and_eq_true, List.isEmpty_iff] at c1
    simp [c1.1, c1.2]
  · simp only [Bool.and_eq_true, List.isEmpty_iff] at c2
    simp [c2.1, c2.2]
  · simp only [Bool.and_eq_true, List.isEmpty_iff] at c1 c2
    simp only [Bool.and_eq_true, List.all_eq_true]
    constructor
    · rintro ⟨h1, h2⟩
      exact ⟨fun h => c2 ⟨h.1, h.2⟩, fun h => c1 ⟨h.1, h.2⟩, h1, h2⟩
    · rintro ⟨_, _, h1, h2⟩
      exact ⟨h1, h2⟩

/-- C4: `match` returns true exactly when some stored group `(lowers, uppers)`
satisfies: not (uppers empty and `L ≥ '\xff'`), not (lowers empty and
`U ≤ '\x00'`), every `l ∈ lowers` has `U > l` bytewise, and every
`u ∈ uppers` has `L < u` bytewise. -/
theorem c4_match_overlap_iff (sets : EncSets) (L U : Str) :
    matchSets sets L U = true ↔
      ∃ g ∈ sets,
        ¬(g.2 = [] ∧ strLe [xffC] L = true) ∧ ¬(g.1 = [] ∧ strLe U [nulC] = true) ∧
        (∀ l ∈ g.1, strLt l U = true) ∧ (∀ u ∈ g.2, strLt L u = true) := by
  unfold matchSets
  rw [List.any_eq_true]
  exact exists_congr fun g => and_congr_right fun _ => groupOk_iff L U g

/-! ## Claim C3: read-side normalization of single-comparator queries -/

/-- C3 counterexample: the claim says a `>v` query normalizes to
`(pack v, 0xFF)`, but the code emits `(pack (inc_patch v), 0xFF)`:
at `v = 1.2.3` the lower bound produced is `pack 1.2.4`, which differs
from `pack 1.2.3`. -/
theorem c3_counterexample :
    queryBounds [⟨.gt, ⟨1, 2, 3⟩⟩] = .ok (lexSemver ⟨1, 2, 4⟩, [xffC]) ∧
      lexSemver ⟨1, 2, 4⟩ ≠ lexSemver ⟨1, 2, 3⟩ := by
  constructor
  · rfl
  · decide

/-- C3 amended: the read-side table the code actually implements.
For `>=v` the bounds are `(pack v, 0xFF)`, but for `>v` they are
`(pack (inc_patch v), 0xFF)`; for `<v` they are `(pack 0.0.0, pack v)` and for
`<=v` they are `(pack 0.0.0, pack (inc_patch v))` — the missing lower side is
filled with the packed zero version, not the `0x00` sentinel; for `=v` they
are `(pack v, pack (inc_patch v))`; for the unset operator they are
`(0x00, 0xFF)`. -/
theorem c3_normalization_table (v : Sem) :
    queryBounds [⟨.unset, v⟩] = .ok ([nulC], [xffC]) ∧
    queryBounds [⟨.eq, v⟩] = .ok (lexSemver v, lexSemver (incPatch v)) ∧
    queryBounds [⟨.lt, v⟩] = .ok (lexSemver ⟨0, 0, 0⟩, lexSemver v) ∧
    queryBounds [⟨.le, v⟩] = .ok (lexSemver ⟨0, 0, 0⟩, lexSemver (incPatch v)) ∧
    queryBounds [⟨.gt, v⟩] = .ok (lexSemver (incPatch v), [xffC]) ∧
    queryBounds [⟨.ge, v⟩] = .ok (lexSemver v, [xffC]) := by
  refine ⟨rfl, rfl, rfl, rfl, rfl, rfl⟩

/-! ## Claim C9: encoding monotonicity -/

/-- C9: on the packed-integer codec's domain, `pack` is strictly monotone —
`v1 < v2` in numeric tuple order iff `pack v1 < pack v2` bytewise — and every
packed version lies strictly between the sentinels `0x00` and `0xFF`. -/
theorem c9_encoding_monotonicity (v1 v2 : Sem)
    (h1 : semOK v1 = true) (h2 : semOK v2 = true) :
    (semLt v1 v2 = true ↔ strLt (lexSemver v1) (lexSemver v2) = true) ∧
    strLt [nulC] (lexSemver v1) = true ∧ strLt (lexSemver v1) [xffC] = true := by
  refine ⟨⟨fun h => strLtD_strLt (lexSemver_ltD (semOK_packOK h2) h), fun h => ?_⟩,
    strLt_nul_lexSemver (semOK_packOK h1), strLt_lexSemver_xff (semOK_packOK h1)⟩
  have tri : semLt v1 v2 = true ∨ v1 = v2 ∨ semLt v2 v1 = true := by
    rw [semLt_iff, sem_eq_iff, semLt_iff]
    omega
  rcases tri with ht | ht | ht
  · exact ht
  · subst ht
    rw [strLt_irrefl] at h
    exact absurd h (by simp)
  · rw [strLtD_asymm (lexSemver_ltD (semOK_packOK h1) ht)] at h
    exact absurd h (by simp)

/-- C9 witness: the theorem applied at `v1 = 1.2.3`, `v2 = 1.2.4`. -/
theorem c9_witness :
    semOK ⟨1, 2, 3⟩ = true ∧ semOK ⟨1, 2, 4⟩ = true ∧
    ((semLt ⟨1, 2, 3⟩ ⟨1, 2, 4⟩ = true ↔
        strLt (lexSemver ⟨1, 2, 3⟩) (lexSemver ⟨1, 2, 4⟩) = true) ∧
      strLt [nulC] (lexSemver ⟨1, 2, 3⟩) = true ∧
      strLt (lexSemver ⟨1, 2, 3⟩) [xffC] = true) :=
  ⟨by decide, by decide, c9_encoding_monotonicity ⟨1, 2, 3⟩ ⟨1, 2, 4⟩ (by decide) (by decide)⟩

/-! ## Claim C2: how unsupported query shapes surface -/

/-- C2 counterexample: a query whose range parses to two disjunction groups
(`"1.0.0 || 2.0.0"`) makes `query` throw `Error('OR-range queries not
supported')` synchronously — the outcome is a synchronous throw, not an error
variant delivered through the stream or callback as the claim states. -/
theorem c2_counterexample :
    queryRun ⟨[], []⟩ (str "b") [[⟨.eq, ⟨1, 0, 0⟩⟩], [⟨.eq, ⟨2, 0, 0⟩⟩]] false
        QueryOpts.default =
      ⟨.thrown (str "OR-range queries not supported"), ⟨[], []⟩⟩ := by
  rfl

/-- C2 amended: a query whose range has more than one disjunction group, and a
non-wildcard query whose single conjunction `normalize` rejects (unsupported
comparator shape or more than two comparators), fail by a synchronous throw —
the error never reaches the stream or callback, and the database state is
untouched. -/
theorem c2_amended (st : DbState) (name : Str) (qsets : List (List Comparator))
    (wildcard : Bool) (opts : QueryOpts) :
    (qsets.length ≠ 1 →
      queryRun st name qsets wildcard opts =
        ⟨.thrown (str "OR-range queries not supported"), st⟩) ∧
    (∀ comps m, qsets = [comps] → wildcard = false → normalizeC comps = .error m →
      queryRun st name qsets wildcard opts = ⟨.thrown m, st⟩) := by
  constructor
  · intro hlen
    match qsets, hlen with
    | [], _ => rfl
    | [_], h => simp at h
    | _ :: _ :: _, _ => rfl
  · rintro comps m rfl rfl hnorm
    simp [queryRun, queryBounds, hnorm, Except.map]

/-- C2 witness: the amended theorem applied to the two-group range of the
counterexample and to a three-comparator conjunction. -/
theorem c2_witness :
    queryRun ⟨[], []⟩ (str "b") [[⟨.eq, ⟨1, 0, 0⟩⟩], [⟨.eq, ⟨2, 0, 0⟩⟩]] false
        QueryOpts.default =
      ⟨.thrown (str "OR-range queries not supported"), ⟨[], []⟩⟩ ∧
    queryRun ⟨[], []⟩ (str "b")
        [[⟨.lt, ⟨1, 0, 0⟩⟩, ⟨.lt, ⟨2, 0, 0⟩⟩, ⟨.lt, ⟨3, 0, 0⟩⟩]] false
        QueryOpts.default =
      ⟨.thrown (str "More than two comparators not supported"), ⟨[], []⟩⟩ :=
  ⟨(c2_amended ⟨[], []⟩ (str "b") [[⟨.eq, ⟨1, 0, 0⟩⟩], [⟨.eq, ⟨2, 0, 0⟩⟩]] false
      QueryOpts.default).1 (by decide),
   (c2_amended ⟨[], []⟩ (str "b")
      [[⟨.lt, ⟨1, 0, 0⟩⟩, ⟨.lt, ⟨2, 0, 0⟩⟩, ⟨.lt, ⟨3, 0, 0⟩⟩]] false
      QueryOpts.default).2 _ _ rfl rfl rfl⟩

/-! ## Claim C1: overlap-filter soundness -/

theorem semLe_refl (a : Sem) : semLe a a = true := by
  rw [semLe_iff]
  omega

theorem semLe_of_lt {a b : Sem} (h : semLt a b = true) : semLe a b = true := by
  rw [semLt_iff] at h
  rw [semLe_iff]
  omega

theorem semLe_of_eq {a b : Sem} (h : a = b) : semLe a b = true := by
  subst h
  exact semLe_refl a

theorem semLt_incPatch_of_le {a b : Sem} (h : semLe a b = true) :
    semLt a (incPatch b) = true := by
  rw [semLe_iff] at h
  rw [semLt_iff, incPatch]
  simp only []
  omega

theorem semLe_incPatch_of_lt {a b : Sem} (h : semLt a b = true) :
    semLe (incPatch a) b = true := by
  rw [semLt_iff] at h
  rw [semLe_iff, incPatch]
  simp only []
  omega

theorem semLt_of_le_of_lt {a b c : Sem} (h1 : semLe a b = true)
    (h2 : semLt b c = true) : semLt a c = true := by
  rw [semLe_iff] at h1
  rw [semLt_iff] at h2 ⊢
  omega

theorem semLe_zero (v : Sem) : semLe ⟨0, 0, 0⟩ v = true := by
  rw [semLe_iff]
  simp only []
  omega

/-- The bounds `normalize` produces bracket every version satisfying the
query's conjunction: the lower bound (when present) is `≤ v` and the upper
bound (when present) is `> v`, in tuple order. -/
theorem normalizeC_bounds {comps : List Comparator} {oL oU : Option Sem} {v : Sem}
    (hn : normalizeC comps = .ok (oL, oU)) (hs : satComps v comps = true) :
    (∀ nl, oL = some nl → semLe nl v = true) ∧
    (∀ nu, oU = some nu → semLt v nu = true) := by
  match comps with
  | [] => simp [normalizeC] at hn
  | [c] =>
    simp only [satComps, List.all_cons, List.all_nil, Bool.and_true] at hs
    cases hop : c.op <;> rw [normalizeC] at hn <;> rw [hop] at hn <;>
      simp only [Except.ok.injEq, Prod.mk.injEq] at hn <;>
      obtain ⟨rfl, rfl⟩ := hn <;> unfold satComp at hs <;> rw [hop] at hs
    · exact ⟨by rintro nl ⟨⟩, by rintro nu ⟨⟩⟩
    · simp only [decide_eq_true_eq] at hs
      subst hs
      exact ⟨fun nl h => by cases h; exact semLe_refl _,
        fun nu h => by cases h; exact semLt_incPatch_of_le (semLe_refl _)⟩
    · exact ⟨fun nl h => by cases h; exact semLe_zero v,
        fun nu h => by cases h; exact hs⟩
    · exact ⟨fun nl h => by cases h; exact semLe_zero v,
        fun nu h => by cases h; exact semLt_incPatch_of_le hs⟩
    · exact ⟨fun nl h => by cases h; exact semLe_incPatch_of_lt hs,
        by rintro nu ⟨⟩⟩
    · exact ⟨fun nl h => by cases h; exact hs, by rintro nu ⟨⟩⟩
  | [c1, c2] =>
    simp only [satComps, List.all_cons, List.all_nil, Bool.and_true,
      Bool.and_eq_true] at hs
    obtain ⟨hs1, hs2⟩ := hs
    rw [normalizeC] at hn
    cases hop1 : c1.op <;> rw [hop1] at hn <;> try simp at hn
    case gt =>
      unfold satComp at hs1 hs2
      rw [hop1] at hs1
      cases hop2 : c2.op <;> rw [hop2] at hn <;> try simp at hn
      case lt =>
        obtain ⟨rfl, rfl⟩ := hn
        rw [hop2] at hs2
        exact ⟨fun nl h => by cases h; exact semLe_incPatch_of_lt hs1,
          fun nu h => by cases h; exact hs2⟩
      case le =>
        obtain ⟨rfl, rfl⟩ := hn
        rw [hop2] at hs2
        exact ⟨fun nl h => by cases h; exact semLe_incPatch_of_lt hs1,
          fun nu h => by cases h; exact semLt_incPatch_of_le hs2⟩
    case ge =>
      unfold satComp at hs1 hs2
      rw [hop1] at hs1
      cases hop2 : c2.op <;> rw [hop2] at hn <;> try simp at hn
      case lt =>
        obtain ⟨rfl, rfl⟩ := hn
        rw [hop2] at hs2
        exact ⟨fun nl h => by cases h; exact hs1, fun nu h => by cases h; exact hs2⟩
      case le =>
        obtain ⟨rfl, rfl⟩ := hn
        rw [hop2] at hs2
        exact ⟨fun nl h => by cases h; exact hs1,
          fun nu h => by cases h; exact semLt_incPatch_of_le hs2⟩
  | c1 :: c2 :: c3 :: rest => simp [normalizeC] at hn

/-- The bounds `normalize` produces are packable when the query's comparator
versions are. -/
theorem normalizeC_packOK {comps : List Comparator} {oL oU : Option Sem}
    (hok : ∀ c ∈ comps, semOK c.semver = true)
    (hn : normalizeC comps = .ok (oL, oU)) :
    (∀ nl, oL = some nl → packOK nl = true) ∧
    (∀ nu, oU = some nu → packOK nu = true) := by
  have hzero : packOK (⟨0, 0, 0⟩ : Sem) = true := by decide
  match comps with
  | [] => simp [normalizeC] at hn
  | [c] =>
    have hc := hok c (by simp)
    cases hop : c.op <;> rw [normalizeC] at hn <;> rw [hop] at hn <;>
      simp only [Except.ok.injEq, Prod.mk.injEq] at hn <;>
      obtain ⟨rfl, rfl⟩ := hn
    · exact ⟨by rintro nl ⟨⟩, by rintro nu ⟨⟩⟩
    · exact ⟨fun nl h => by cases h; exact semOK_packOK hc,
        fun nu h => by cases h; exact semOK_packOK_inc hc⟩
    · exact ⟨fun nl h => by cases h; exact hzero,
        fun nu h => by cases h; exact semOK_packOK hc⟩
    · exact ⟨fun nl h => by cases h; exact hzero,
        fun nu h => by cases h; exact semOK_packOK_inc hc⟩
    · exact ⟨fun nl h => by cases h; exact semOK_packOK_inc hc, by rintro nu ⟨⟩⟩
    · exact ⟨fun nl h => by cases h; exact semOK_packOK hc, by rintro nu ⟨⟩⟩
  | [c1, c2] =>
    have hc1 := hok c1 (by simp)
    have hc2 := hok c2 (by simp)
    rw [normalizeC] at hn
    cases hop1 : c1.op <;> rw [hop1] at hn <;> try simp at hn
    case gt =>
      cases hop2 : c2.op <;> rw [hop2] at hn <;> try simp at hn
      case lt =>
        obtain ⟨rfl, rfl⟩ := hn
        exact ⟨fun nl h => by cases h; exact semOK_packOK_inc hc1,
          fun nu h => by cases h; exact semOK_packOK hc2⟩
      case le =>
        obtain ⟨rfl, rfl⟩ := hn
        exact ⟨fun nl h => by cases h; exact semOK_packOK_inc hc1,
          fun nu h => by cases h; exact semOK_packOK_inc hc2⟩
    case ge =>
      cases hop2 : c2.op <;> rw [hop2] at hn <;> try simp at hn
      case lt =>
        obtain ⟨rfl, rfl⟩ := hn
        exact ⟨fun nl h => by cases h; exact semOK_packOK hc1,
          fun nu h => by cases h; exact semOK_packOK hc2⟩
      case le =>
        obtain ⟨rfl, rfl⟩ := hn
        exact ⟨fun nl h => by cases h; exact semOK_packOK hc1,
          fun nu h => by cases h; exact semOK_packOK_inc hc2⟩
  | c1 :: c2 :: c3 :: rest => simp [normalizeC] at hn

/-- Every write-side lower bound of a satisfied conjunction is the pack of a
version `≤ v`. -/
theorem encode_lower_bound {R : List Comparator} {v : Sem} {l : Str}
    (hs : satComps v R = true) (hok : ∀ c ∈ R, semOK c.semver = true)
    (hl : l ∈ (encodeSet R).1) :
    ∃ w, l = lexSemver w ∧ packOK w = true ∧ semLe w v = true := by
  obtain ⟨c, hcR, hc⟩ := List.mem_filterMap.mp hl
  have hsat : satComp v c = true := by
    rw [satComps, List.all_eq_true] at hs
    exact hs c hcR
  have hcok := hok c hcR
  unfold lowerOf at hc
  unfold satComp at hsat
  cases hop : c.op <;> rw [hop] at hc hsat <;> try simp at hc
  case unset =>
    exact ⟨⟨0, 0, 0⟩, hc.symm, by decide, semLe_zero v⟩
  case eq =>
    simp only [decide_eq_true_eq] at hsat
    exact ⟨c.semver, hc.symm, semOK_packOK hcok, semLe_of_eq hsat.symm⟩
  case gt =>
    exact ⟨c.semver, hc.symm, semOK_packOK hcok, semLe_of_lt hsat⟩
  case ge =>
    exact ⟨c.semver, hc.symm, semOK_packOK hcok, hsat⟩

/-- Every write-side upper bound of a satisfied conjunction without `<=`
comparators is the pack of a version `> v` strictly. -/
theorem encode_upper_bound {R : List Comparator} {v : Sem} {u : Str}
    (hs : satComps v R = true) (hok : ∀ c ∈ R, semOK c.semver = true)
    (hnole : ∀ c ∈ R, c.op ≠ Op.le) (hu : u ∈ (encodeSet R).2) :
    ∃ w, u = lexSemver w ∧ packOK w = true ∧ semLt v w = true := by
  obtain ⟨c, hcR, hc⟩ := List.mem_filterMap.mp hu
  have hsat : satComp v c = true := by
    rw [satComps, List.all_eq_true] at hs
    exact hs c hcR
  have hcok := hok c hcR
  unfold upperOf at hc
  unfold satComp at hsat
  cases hop : c.op <;> rw [hop] at hc hsat <;> try simp at hc
  case eq =>
    simp only [decide_eq_true_eq] at hsat
    exact ⟨incPatch c.semver, hc.symm, semOK_packOK_inc hcok,
      semLt_incPatch_of_le (semLe_of_eq hsat)⟩
  case lt =>
    exact ⟨c.semver, hc.symm, semOK_packOK hcok, hsat⟩
  case le =>
    exact absurd hop (hnole c hcR)

/-- C1 counterexample: the stored range `<=1.2.3` and the query `=1.2.3` both
admit version `1.2.3`, the reader accepts the query, yet `match` rejects the
stored encoding against the normalized bounds — a false negative, because the
write side treats `<=` as a strict upper bound. -/
theorem c1_counterexample :
    satComps ⟨1, 2, 3⟩ [⟨Op.le, ⟨1, 2, 3⟩⟩] = true ∧
    satComps ⟨1, 2, 3⟩ [⟨Op.eq, ⟨1, 2, 3⟩⟩] = true ∧
    queryBounds [⟨Op.eq, ⟨1, 2, 3⟩⟩] = .ok (lexSemver ⟨1, 2, 3⟩, lexSemver ⟨1, 2, 4⟩) ∧
    matchSets (encodeSets [[⟨Op.le, ⟨1, 2, 3⟩⟩]])
      (lexSemver ⟨1, 2, 3⟩) (lexSemver ⟨1, 2, 4⟩) = false := by
  exact ⟨by decide, by decide, rfl, by decide⟩

/-- C1 amended: the overlap filter produces no false negative for stored
conjunctions that contain no `<=` comparator (the counterexample shows `<=`
breaks the guarantee), with all comparator versions inside the packed codec's
domain: if some version satisfies both the stored conjunction `R` and the
accepted query conjunction `Q`, then `match (encode R) (normalize Q)` holds. -/
theorem c1_amended (R Q : List Comparator) (v : Sem) (L U : Str)
    (hRle : ∀ c ∈ R, c.op ≠ Op.le)
    (hRok : ∀ c ∈ R, semOK c.semver = true)
    (hQok : ∀ c ∈ Q, semOK c.semver = true)
    (hvR : satComps v R = true) (hvQ : satComps v Q = true)
    (hQb : queryBounds Q = .ok (L, U)) :
    matchSets (encodeSets [R]) L U = true := by
  obtain ⟨oL, oU, hn, hL, hU⟩ :
      ∃ oL oU, normalizeC Q = .ok (oL, oU) ∧
        L = (oL.map lexSemver).getD [nulC] ∧ U = (oU.map lexSemver).getD [xffC] := by
    unfold queryBounds at hQb
    cases hq : normalizeC Q with
    | error e => rw [hq] at hQb; simp [Except.map] at hQb
    | ok p =>
      obtain ⟨o1, o2⟩ := p
      rw [hq] at hQb
      simp only [Except.map, Except.ok.injEq, Prod.mk.injEq] at hQb
      exact ⟨o1, o2, rfl, hQb.1.symm, hQb.2.symm⟩
  obtain ⟨hbL, hbU⟩ := normalizeC_bounds hn hvQ
  obtain ⟨hpL, hpU⟩ := normalizeC_packOK hQok hn
  have hLxff : strLt L [xffC] = true := by
    cases oL with
    | none => rw [hL]; exact strLt_nul_xff
    | some nl => rw [hL]; exact strLt_lexSemver_xff (hpL nl rfl)
  have hnulU : strLt [nulC] U = true := by
    cases oU with
    | none => rw [hU]; exact strLt_nul_xff
    | some nu => rw [hU]; exact strLt_nul_lexSemver (hpU nu rfl)
  have hgoal : groupOk L U (encodeSet R) = true := by
    rw [groupOk_iff]
    refine ⟨?_, ?_, ?_, ?_⟩
    · rintro ⟨_, hle⟩
      rw [strLe, hLxff] at hle
      simp at hle
    · rintro ⟨_, hle⟩
      rw [strLe, hnulU] at hle
      simp at hle
    · intro l hl
      obtain ⟨w, rfl, hwOK, hwv⟩ := encode_lower_bound hvR hRok hl
      cases oU with
      | none => rw [hU]; exact strLt_lexSemver_xff hwOK
      | some nu =>
        rw [hU]
        exact strLtD_strLt (lexSemver_ltD (hpU nu rfl)
          (semLt_of_le_of_lt hwv (hbU nu rfl)))
    · intro u hu
      obtain ⟨w, rfl, hwOK, hvw⟩ := encode_upper_bound hvR hRok hRle hu
      cases oL with
      | none => rw [hL]; exact strLt_nul_lexSemver hwOK
      | some nl =>
        rw [hL]
        exact strLtD_strLt (lexSemver_ltD hwOK
          (semLt_of_le_of_lt (hbL nl rfl) hvw))
  simp [matchSets, encodeSets, hgoal]

/-- C1 witness: the amended theorem applied to the stored range `^1.2.0`
(encoded `>=1.2.0 <2.0.0`), the query `=1.5.0` and the common version
`1.5.0`. -/
theorem c1_witness :
    matchSets (encodeSets [[⟨Op.ge, ⟨1, 2, 0⟩⟩, ⟨Op.lt, ⟨2, 0, 0⟩⟩]])
      (lexSemver ⟨1, 5, 0⟩) (lexSemver ⟨1, 5, 1⟩) = true :=
  c1_amended [⟨Op.ge, ⟨1, 2, 0⟩⟩, ⟨Op.lt, ⟨2, 0, 0⟩⟩] [⟨Op.eq, ⟨1, 5, 0⟩⟩]
    ⟨1, 5, 0⟩ (lexSemver ⟨1, 5, 0⟩) (lexSemver ⟨1, 5, 1⟩)
    (by decide) (by decide) (by decide) (by decide) (by decide) rfl

/-! ## Lemmas: the escape discipline -/

theorem char_valid_cases (c : Char) :
    c.toNat < 55296 ∨ (57344 ≤ c.toNat ∧ c.toNat < 1114112) := by
  have h := c.valid
  unfold UInt32.isValidChar Nat.isValidChar at h
  rcases h with h | h
  · left; simpa [Char.toNat] using h
  · right; simpa [Char.toNat] using h

theorem hexUp_toNat {n : Nat} (h : n < 16) :
    (hexUp n).toNat = if n < 10 then 48 + n else 55 + n := by
  unfold hexUp
  split <;> rw [char_toNat_ofNat (by omega)]

theorem hexVal_hexUp {n : Nat} (h : n < 16) : hexVal (hexUp n) = n := by
  unfold hexVal
  rw [hexUp_toNat h]
  split_ifs <;> omega

theorem hexUp_ne_u {n : Nat} (h : n < 16) : hexUp n ≠ 'u' := by
  intro he
  have : (hexUp n).toNat = 117 := by rw [he]; rfl
  rw [hexUp_toNat h] at this
  split_ifs at this <;> omega

theorem safeChar_ne_pct {c : Char} (h : safeChar c = true) : c ≠ '%' := by
  intro he
  rw [he] at h
  exact absurd h (by decide)

theorem char_ofNat_split (c : Char) :
    16 * (c.toNat / 16) + c.toNat % 16 = c.toNat := by
  omega

theorem unescChar_escChar (c : Char) (r : Str) :
    unescChar (escChar c ++ r) = some (c, r) := by
  unfold escChar
  split_ifs with hsafe hlt hbmp
  · simp only [List.cons_append, List.nil_append, unescChar]
    rw [if_pos (safeChar_ne_pct hsafe)]
  · simp only [List.cons_append, List.nil_append, unescChar]
    rw [if_neg (by simp), if_pos (hexUp_ne_u (by omega))]
    rw [hexVal_hexUp (by omega), hexVal_hexUp (by omega)]
    rw [char_ofNat_split, Char.ofNat_toNat]
  · simp only [hex4, List.cons_append, List.nil_append, unescChar]
    rw [if_neg (by simp), if_neg (by simp)]
    rw [hexVal_hexUp (by omega), hexVal_hexUp (by omega), hexVal_hexUp (by omega),
      hexVal_hexUp (by omega)]
    have hn : 4096 * (c.toNat / 4096 % 16) + 256 * (c.toNat / 256 % 16) +
        16 * (c.toNat / 16 % 16) + c.toNat % 16 = c.toNat := by omega
    rw [hn]
    have hval := char_valid_cases c
    rw [if_neg (by omega), Char.ofNat_toNat]
  · simp only [hex4, List.cons_append, List.nil_append, unescChar]
    rw [if_neg (by simp), if_neg (by simp)]
    have hval := char_valid_cases c
    have hge : 65536 ≤ c.toNat := by omega
    have hhi4 : (55296 + (c.toNat - 65536) / 1024) < 65536 := by omega
    rw [hexVal_hexUp (by omega), hexVal_hexUp (by omega), hexVal_hexUp (by omega),
      hexVal_hexUp (by omega)]
    have hhi : 4096 * ((55296 + (c.toNat - 65536) / 1024) / 4096 % 16) +
        256 * ((55296 + (c.toNat - 65536) / 1024) / 256 % 16) +
        16 * ((55296 + (c.toNat - 65536) / 1024) / 16 % 16) +
        (55296 + (c.toNat - 65536) / 1024) % 16 =
        55296 + (c.toNat - 65536) / 1024 := by omega
    rw [hhi]
    have hrange : 55296 ≤ 55296 + (c.toNat - 65536) / 1024 ∧
        55296 + (c.toNat - 65536) / 1024 ≤ 56319 := by
      constructor
      · omega
      · have : (c.toNat - 65536) / 1024 ≤ 1023 := by omega
        omega
    rw [if_pos hrange, if_pos (⟨trivial, trivial⟩ : True ∧ True)]
    rw [hexVal_hexUp (by omega), hexVal_hexUp (by omega), hexVal_hexUp (by omega),
      hexVal_hexUp (by omega)]
    have hlo : 4096 * ((56320 + (c.toNat - 65536) % 1024) / 4096 % 16) +
        256 * ((56320 + (c.toNat - 65536) % 1024) / 256 % 16) +
        16 * ((56320 + (c.toNat - 65536) % 1024) / 16 % 16) +
        (56320 + (c.toNat - 65536) % 1024) % 16 =
        56320 + (c.toNat - 65536) % 1024 := by omega
    rw [hlo]
    have hsum : 65536 + (55296 + (c.toNat - 65536) / 1024 - 55296) * 1024 +
        (56320 + (c.toNat - 65536) % 1024 - 56320) = c.toNat := by omega
    rw [hsum, Char.ofNat_toNat]

theorem escChar_ne_nil (c : Char) : escChar c ≠ [] := by
  unfold escChar
  split_ifs <;> simp [hex4]

theorem escapeName_injective : ∀ {s1 s2 : Str}, escapeName s1 = escapeName s2 → s1 = s2 := by
  intro s1
  induction s1 with
  | nil =>
    intro s2 h
    cases s2 with
    | nil => rfl
    | cons c2 t2 =>
      exfalso
      simp only [escapeName, List.flatMap_nil, List.flatMap_cons] at h
      exact escChar_ne_nil c2 (List.append_eq_nil.mp h.symm).1
  | cons c1 t1 ih =>
    intro s2 h
    cases s2 with
    | nil =>
      exfalso
      simp only [escapeName, List.flatMap_nil, List.flatMap_cons] at h
      exact escChar_ne_nil c1 (List.append_eq_nil.mp h).1
    | cons c2 t2 =>
      simp only [escapeName, List.flatMap_cons] at h
      have h1 := unescChar_escChar c1 (t1.flatMap escChar)
      have h2 := unescChar_escChar c2 (t2.flatMap escChar)
      rw [h, h2] at h1
      simp only [Option.some.injEq, Prod.mk.injEq] at h1
      obtain ⟨hc, ht⟩ := h1
      cases hc
      rw [ih (show escapeName t1 = escapeName t2 from ht.symm)]

theorem escChar_no_bang (c : Char) : ∀ x ∈ escChar c, x ≠ '!' := by
  intro x hx
  unfold escChar at hx
  have hbang : ∀ {m : Nat}, m < 16 → hexUp m ≠ '!' := by
    intro m hm he
    have h2 : (hexUp m).toNat = 33 := by rw [he]; rfl
    rw [hexUp_toNat hm] at h2
    split_ifs at h2 <;> omega
  split_ifs at hx with hsafe hlt hbmp
  · simp only [List.mem_singleton] at hx
    subst hx
    intro he
    rw [he] at hsafe
    exact absurd hsafe (by decide)
  · simp only [List.mem_cons, List.not_mem_nil, or_false] at hx
    rcases hx with h | h | h
    · rw [h]; decide
    · rw [h]; exact hbang (by omega)
    · rw [h]; exact hbang (by omega)
  · simp only [hex4, List.mem_append, List.mem_cons, List.not_mem_nil, or_false] at hx
    rcases hx with (h | h) | (h | h | h | h)
    all_goals first
      | (rw [h]; decide)
      | (rw [h]; exact hbang (by omega))
  · simp only [hex4, List.mem_append, List.mem_cons, List.not_mem_nil, or_false] at hx
    rcases hx with (((h | h) | (h | h | h | h)) | (h | h)) | (h | h | h | h)
    all_goals first
      | (rw [h]; decide)
      | (rw [h]; exact hbang (by omega))

theorem escapeName_no_bang (s : Str) : ∀ x ∈ escapeName s, x ≠ '!' := by
  intro x hx
  simp only [escapeName, List.mem_flatMap] at hx
  obtain ⟨c, _, hc⟩ := hx
  exact escChar_no_bang c x hc

/-! ## Lemmas: the store model -/

theorem alGet_cons {β : Type} (p : Str × β) (t : List (Str × β)) (k : Str) :
    alGet k (p :: t) = if p.1 = k then some p.2 else alGet k t := by
  cases p
  rfl

theorem alErase_cons {β : Type} (p : Str × β) (t : List (Str × β)) (k : Str) :
    alErase k (p :: t) = if p.1 = k then alErase k t else p :: alErase k t := by
  by_cases he : p.1 = k <;> simp [alErase, List.filter, he]

theorem alGet_mem {β : Type} {k : Str} {v : β} :
    ∀ {l : List (Str × β)}, alGet k l = some v → (k, v) ∈ l := by
  intro l
  induction l with
  | nil => intro h; simp [alGet] at h
  | cons p t ih =>
    intro h
    rw [alGet_cons] at h
    split_ifs at h with he
    · simp only [Option.some.injEq] at h
      have : (k, v) = p := by rw [← he, ← h]
      rw [this]
      exact List.mem_cons_self p t
    · exact List.mem_cons_of_mem p (ih h)

theorem alGet_alErase_self {β : Type} (k : Str) (l : List (Str × β)) :
    alGet k (alErase k l) = none := by
  induction l with
  | nil => rfl
  | cons p t ih =>
    rw [alErase_cons]
    split_ifs with he
    · exact ih
    · rw [alGet_cons, if_neg he]
      exact ih

theorem alGet_alErase_other {β : Type} {k k' : Str} (h : k' ≠ k) (l : List (Str × β)) :
    alGet k' (alErase k l) = alGet k' l := by
  induction l with
  | nil => rfl
  | cons p t ih =>
    rw [alErase_cons]
    split_ifs with he
    · rw [ih, alGet_cons, if_neg (by rw [he]; exact fun hx => h hx.symm)]
    · rw [alGet_cons, alGet_cons]
      split_ifs with he2
      · rfl
      · exact ih

theorem alGet_alPut_self {β : Type} (k : Str) (v : β) (l : List (Str × β)) :
    alGet k (alPut k v l) = some v := by
  rw [alPut, alGet_cons, if_pos rfl]

theorem alGet_alPut_other {β : Type} {k k' : Str} (h : k' ≠ k) (v : β) (l : List (Str × β)) :
    alGet k' (alPut k v l) = alGet k' l := by
  rw [alPut, alGet_cons, if_neg (fun hx => h hx.symm)]
  exact alGet_alErase_other h l

theorem applyBatch_append (s : Store) (o1 o2 : List (Str × Value)) :
    applyBatch s (o1 ++ o2) = applyBatch (applyBatch s o1) o2 := by
  simp [applyBatch, List.foldl_append]

theorem alGet_applyBatch_notmem {k : Str} :
    ∀ {ops : List (Str × Value)} (s : Store), (∀ p ∈ ops, p.1 ≠ k) →
      alGet k (applyBatch s ops) = alGet k s := by
  intro ops
  induction ops with
  | nil => intro s _; rfl
  | cons o t ih =>
    intro s h
    show alGet k (applyBatch (alPut o.1 o.2 s) t) = alGet k s
    rw [ih _ (fun p hp => h p (List.mem_cons_of_mem o hp)),
      alGet_alPut_other (fun he => h o (List.mem_cons_self o t) he.symm) o.2 s]

theorem alGet_applyBatch_last (s : Store) (o1 : List (Str × Value)) (k : Str)
    (v : Value) (o2 : List (Str × Value)) (h2 : ∀ p ∈ o2, p.1 ≠ k) :
    alGet k (applyBatch s (o1 ++ (k, v) :: o2)) = some v := by
  rw [show o1 ++ (k, v) :: o2 = (o1 ++ [(k, v)]) ++ o2 by simp, applyBatch_append,
    alGet_applyBatch_notmem _ h2, applyBatch_append]
  show alGet k (alPut k v (applyBatch s o1)) = some v
  exact alGet_alPut_self k v _

theorem append_cons_ne {p : Str} {x y : Char} {s t : Str} (h : x ≠ y) :
    p ++ x :: s ≠ p ++ y :: t := by
  intro he
  have := List.append_cancel_left he
  simp only [List.cons.injEq] at this
  exact h this.1

theorem bang_segment : ∀ {a b x y : Str}, (∀ c ∈ a, c ≠ '!') → (∀ c ∈ b, c ≠ '!') →
    a ++ '!' :: x = b ++ '!' :: y → a = b ∧ x = y := by
  intro a
  induction a with
  | nil =>
    intro b x y _ hb h
    cases b with
    | nil => simpa using h
    | cons c bt =>
      exfalso
      simp only [List.nil_append, List.cons_append, List.cons.injEq] at h
      exact hb c (List.mem_cons_self c bt) h.1.symm
  | cons c at' ih =>
    intro b x y ha hb h
    cases b with
    | nil =>
      exfalso
      simp only [List.cons_append, List.nil_append, List.cons.injEq] at h
      exact ha c (List.mem_cons_self c at') h.1
    | cons d bt =>
      simp only [List.cons_append, List.cons.injEq] at h
      obtain ⟨rfl, h2⟩ := h
      obtain ⟨h3, h4⟩ := ih (fun e he => ha e (List.mem_cons_of_mem c he))
        (fun e he => hb e (List.mem_cons_of_mem c he)) h2
      exact ⟨by rw [h3], h4⟩

theorem key_ne_of_dep_ne {front eD eD' rest t : Str}
    (hD : ∀ c ∈ eD, c ≠ '!') (hD' : ∀ c ∈ eD', c ≠ '!') (hne : eD' ≠ eD) :
    front ++ (eD' ++ '!' :: rest) ≠ front ++ (eD ++ '!' :: t) := by
  intro h
  exact hne (bang_segment hD' hD (List.append_cancel_left h)).1

theorem ixKey_eq (kind dep : Str) (pkg : Manifest) : ixKey kind dep pkg =
    (str "!index!" ++ kind ++ ['!']) ++
      (escapeName dep ++ '!' :: (escapeName pkg.name ++ '@' :: vstr pkg.version)) := by
  simp [ixKey]

theorem ixLatestKey_eq (kind dep : Str) (pkg : Manifest) : ixLatestKey kind dep pkg =
    (str "!index-latest!" ++ kind ++ ['!']) ++
      (escapeName dep ++ '!' :: escapeName pkg.name) := by
  simp [ixLatestKey]

theorem ixKey_starts (kind dep : Str) (pkg : Manifest) :
    strStarts (str "!index!" ++ kind ++ ['!']) (ixKey kind dep pkg) = true := by
  rw [ixKey_eq]
  exact strStarts_self_append _ _

theorem ixLatestKey_starts (kind dep : Str) (pkg : Manifest) :
    strStarts (str "!index-latest!" ++ kind ++ ['!']) (ixLatestKey kind dep pkg) = true := by
  rw [ixLatestKey_eq]
  exact strStarts_self_append _ _

theorem pkgKey_starts (pkg : Manifest) :
    strStarts (str "!pkg!") (pkgKey pkg) = true := by
  rw [show pkgKey pkg = str "!pkg!" ++
    (escapeName pkg.name ++ '@' :: vstr pkg.version) by simp [pkgKey]]
  exact strStarts_self_append _ _

theorem batchDeps_key_starts {pkg : Manifest}
    {deps : List (Str × Option (List (List Comparator)))} {kind : Str} {isL : Bool} :
    ∀ p ∈ batchDependencies pkg deps kind isL,
      strStarts (str "!index!" ++ kind ++ ['!']) p.1 = true ∨
      strStarts (str "!index-latest!" ++ kind ++ ['!']) p.1 = true := by
  intro p hp
  unfold batchDependencies at hp
  rw [List.mem_flatMap] at hp
  obtain ⟨q, _, hq⟩ := hp
  rcases hqq : q.2 with _ | sets
  · rw [hqq] at hq
    simp at hq
  · rw [hqq] at hq
    rcases List.mem_cons.mp hq with rfl | hq2
    · left
      exact ixKey_starts kind q.1 pkg
    · rcases hisL : isL with _ | _
      · rw [hisL] at hq2
        simp at hq2
      · rw [hisL] at hq2
        simp only [if_true] at hq2
        rcases List.mem_singleton.mp hq2 with rfl
        right
        exact ixLatestKey_starts kind q.1 pkg

theorem batchDeps_key_starts_false {pkg : Manifest}
    {deps : List (Str × Option (List (List Comparator)))} {kind : Str} :
    ∀ p ∈ batchDependencies pkg deps kind false,
      strStarts (str "!index!" ++ kind ++ ['!']) p.1 = true := by
  intro p hp
  unfold batchDependencies at hp
  rw [List.mem_flatMap] at hp
  obtain ⟨q, _, hq⟩ := hp
  rcases hqq : q.2 with _ | sets
  · rw [hqq] at hq
    simp at hq
  · rw [hqq] at hq
    simp only [if_neg (by simp : ¬ false = true)] at hq
    rcases List.mem_cons.mp hq with rfl | hq2
    · exact ixKey_starts kind q.1 pkg
    · simp at hq2

theorem starts_front_of_starts {A t k : Str} (h : strStarts (A ++ t) k = true) :
    strStarts A k = true :=
  strStarts_trans (strStarts_self_append A t) h

theorem ixKey_shape (kind dep : Str) (pkg : Manifest) : ixKey kind dep pkg =
    str "!index" ++ '!' :: (kind ++ ['!'] ++ escapeName dep ++ ['!'] ++
      escapeName pkg.name ++ ['@'] ++ vstr pkg.version) := by
  rw [ixKey, show str "!index!" = str "!index" ++ ['!'] from rfl]
  simp

theorem ixLatestKey_shape (kind dep : Str) (pkg : Manifest) : ixLatestKey kind dep pkg =
    str "!index" ++ '-' :: (str "latest!" ++ kind ++ ['!'] ++ escapeName dep ++ ['!'] ++
      escapeName pkg.name) := by
  rw [ixLatestKey, show str "!index-latest!" = str "!index" ++ '-' :: str "latest!" from rfl]
  simp

theorem ixKey_ne_ixLatestKey {kind kind' dep dep' : Str} {pkg pkg' : Manifest} :
    ixKey kind dep pkg ≠ ixLatestKey kind' dep' pkg' := by
  rw [ixKey_shape, ixLatestKey_shape]
  exact append_cons_ne (by decide)

theorem ixKey_inj_dep {kind dep dep' : Str} {pkg : Manifest}
    (h : ixKey kind dep' pkg = ixKey kind dep pkg) : dep' = dep := by
  rw [ixKey_eq, ixKey_eq] at h
  exact escapeName_injective
    (bang_segment (escapeName_no_bang dep') (escapeName_no_bang dep)
      (List.append_cancel_left h)).1

theorem ixLatestKey_inj_dep {kind dep dep' : Str} {pkg : Manifest}
    (h : ixLatestKey kind dep' pkg = ixLatestKey kind dep pkg) : dep' = dep := by
  rw [ixLatestKey_eq, ixLatestKey_eq] at h
  exact escapeName_injective
    (bang_segment (escapeName_no_bang dep') (escapeName_no_bang dep)
      (List.append_cancel_left h)).1

theorem batchDeps_key_cases {pkg : Manifest}
    {deps : List (Str × Option (List (List Comparator)))} {kind : Str} {isL : Bool} :
    ∀ p ∈ batchDependencies pkg deps kind isL,
      ∃ dep sets, (dep, some sets) ∈ deps ∧
        (p.1 = ixKey kind dep pkg ∨ p.1 = ixLatestKey kind dep pkg) := by
  intro p hp
  unfold batchDependencies at hp
  rw [List.mem_flatMap] at hp
  obtain ⟨q, hqmem, hq⟩ := hp
  rcases hqq : q.2 with _ | sets
  · rw [hqq] at hq
    simp at hq
  · rw [hqq] at hq
    have hqm : (q.1, some sets) ∈ deps := by
      rw [show (q.1, some sets) = q from by rw [← hqq]]
      exact hqmem
    rcases List.mem_cons.mp hq with rfl | hq2
    · exact ⟨q.1, sets, hqm, Or.inl rfl⟩
    · rcases hisL : isL with _ | _
      · rw [hisL] at hq2
        simp at hq2
      · rw [hisL] at hq2
        simp only [if_true] at hq2
        rcases List.mem_singleton.mp hq2 with rfl
        exact ⟨q.1, sets, hqm, Or.inr rfl⟩

theorem nodup_fst_eq {β : Type} :
    ∀ {l : List (Str × β)}, (l.map Prod.fst).Nodup →
      ∀ {k : Str} {a b : β}, (k, a) ∈ l → (k, b) ∈ l → a = b := by
  intro l
  induction l with
  | nil => intro _ k a b ha; simp at ha
  | cons q t ih =>
    intro hnd k a b ha hb
    simp only [List.map_cons, List.nodup_cons] at hnd
    rcases List.mem_cons.mp ha with ha1 | ha2 <;>
      rcases List.mem_cons.mp hb with hb1 | hb2
    · rw [← ha1] at hb1
      simp only [Prod.mk.injEq] at hb1
      exact hb1.2.symm
    · exfalso
      apply hnd.1
      rw [show q.1 = k from by rw [← ha1]]
      exact List.mem_map_of_mem Prod.fst hb2
    · exfalso
      apply hnd.1
      rw [show q.1 = k from by rw [← hb1]]
      exact List.mem_map_of_mem Prod.fst ha2
    · exact ih hnd.2 ha2 hb2

theorem batchDependencies_cons (pkg : Manifest)
    (q : Str × Option (List (List Comparator)))
    (rest : List (Str × Option (List (List Comparator)))) (kind : Str) (isL : Bool) :
    batchDependencies pkg (q :: rest) kind isL =
      (match q.2 with
       | none => []
       | some sets =>
         (ixKey kind q.1 pkg, .encoded (encodeSets sets)) ::
           (if isL then [(ixLatestKey kind q.1 pkg, .latestRec pkg.version (encodeSets sets))]
            else [])) ++ batchDependencies pkg rest kind isL := by
  simp [batchDependencies]

theorem alGet_applyBatch_batchDeps {pkg : Manifest} {kind D : Str}
    {sets : List (List Comparator)} {isL : Bool} :
    ∀ {deps : List (Str × Option (List (List Comparator)))} (s : Store),
      (deps.map Prod.fst).Nodup → (D, some sets) ∈ deps →
      alGet (ixKey kind D pkg) (applyBatch s (batchDependencies pkg deps kind isL)) =
        some (.encoded (encodeSets sets)) := by
  intro deps
  induction deps with
  | nil => intro s _ hmem; simp at hmem
  | cons q rest ih =>
    intro s hnd hmem
    rw [batchDependencies_cons]
    have hndr : (rest.map Prod.fst).Nodup := by
      simp only [List.map_cons, List.nodup_cons] at hnd
      exact hnd.2
    have hqnotin : q.1 ∉ rest.map Prod.fst := by
      simp only [List.map_cons, List.nodup_cons] at hnd
      exact hnd.1
    rcases List.mem_cons.mp hmem with heq | hmem2
    · have hq : q = (D, some sets) := heq.symm
      subst hq
      show alGet (ixKey kind D pkg)
        (applyBatch s (((ixKey kind D pkg, Value.encoded (encodeSets sets)) ::
          (if isL then [(ixLatestKey kind D pkg, .latestRec pkg.version (encodeSets sets))] else [])) ++
          batchDependencies pkg rest kind isL)) = _
      rw [show ((ixKey kind D pkg, Value.encoded (encodeSets sets)) ::
          (if isL then [(ixLatestKey kind D pkg, Value.latestRec pkg.version (encodeSets sets))] else [])) ++
          batchDependencies pkg rest kind isL =
          [] ++ (ixKey kind D pkg, Value.encoded (encodeSets sets)) ::
          ((if isL then [(ixLatestKey kind D pkg, Value.latestRec pkg.version (encodeSets sets))] else []) ++
            batchDependencies pkg rest kind isL) by simp]
      apply alGet_applyBatch_last
      intro p hp
      rcases List.mem_append.mp hp with hp1 | hp2
      · rcases hisL : isL with _ | _
        · rw [hisL] at hp1
          simp at hp1
        · rw [hisL] at hp1
          simp only [if_true, List.mem_singleton] at hp1
          rw [hp1]
          exact fun he => ixKey_ne_ixLatestKey he.symm
      · obtain ⟨dep', sets', hdmem, hkey⟩ := batchDeps_key_cases p hp2
        rcases hkey with hkey | hkey
        · rw [hkey]
          intro he
          exact hqnotin (by
            rw [← ixKey_inj_dep he]
            exact List.mem_map.mpr ⟨(dep', some sets'), hdmem, rfl⟩)
        · rw [hkey]
          exact fun he => ixKey_ne_ixLatestKey he.symm
    · have hne : q.1 ≠ D := fun he => hqnotin (by
        rw [he]
        exact List.mem_map_of_mem Prod.fst hmem2)
      rcases hqq : q.2 with _ | qsets
      · simp only [List.nil_append]
        exact ih s hndr hmem2
      · rw [applyBatch_append]
        exact ih _ hndr hmem2

theorem storeOp_def (st : DbState) (pkg : Manifest) :
    storeOp st pkg = ⟨applyBatch st.store
      (batchDependencies pkg pkg.dependencies (str "dep") (storeIsLatest st pkg) ++
       batchDependencies pkg pkg.devDependencies (str "dev") (storeIsLatest st pkg) ++
       [(pkgKey pkg, .manifest pkg)] ++
       (if storeIsLatest st pkg then
         [(str "!pkg-latest!" ++ escapeName pkg.name, .manifest pkg),
          (str "!latest-version!" ++ escapeName pkg.name, .version pkg.version)]
        else [])),
     if storeIsLatest st pkg then alPut pkg.name pkg.version st.cache else st.cache⟩ := rfl

theorem storeOp_latest_frame {st : DbState} {pkg : Manifest}
    (h : storeIsLatest st pkg = false) :
    (storeOp st pkg).cache = st.cache ∧
    ∀ k, (strStarts (str "!pkg-latest!") k = true ∨
          strStarts (str "!latest-version!") k = true ∨
          strStarts (str "!index-latest!") k = true) →
      alGet k (storeOp st pkg).store = alGet k st.store := by
  rw [storeOp_def, h]
  refine ⟨by simp, ?_⟩
  intro k hk
  simp only
  rw [if_neg (by simp)]
  apply alGet_applyBatch_notmem
  intro p hp
  simp only [List.append_nil, List.mem_append, List.mem_singleton] at hp
  rcases hp with (hp | hp) | rfl
  · have hs := batchDeps_key_starts_false p hp
    rcases hk with hk | hk | hk <;>
      exact ne_of_starts_incompat hs hk (by decide) (by decide)
  · have hs := batchDeps_key_starts_false p hp
    rcases hk with hk | hk | hk <;>
      exact ne_of_starts_incompat hs hk (by decide) (by decide)
  · have hs := pkgKey_starts pkg
    rcases hk with hk | hk | hk <;>
      exact ne_of_starts_incompat hs hk (by decide) (by decide)

theorem storeOp_writes_pkg (st : DbState) (pkg : Manifest) :
    alGet (pkgKey pkg) (storeOp st pkg).store = some (.manifest pkg) := by
  rw [storeOp_def]
  simp only
  rw [show batchDependencies pkg pkg.dependencies (str "dep") (storeIsLatest st pkg) ++
      batchDependencies pkg pkg.devDependencies (str "dev") (storeIsLatest st pkg) ++
      [(pkgKey pkg, Value.manifest pkg)] ++
      (if storeIsLatest st pkg then
        [(str "!pkg-latest!" ++ escapeName pkg.name, Value.manifest pkg),
         (str "!latest-version!" ++ escapeName pkg.name, Value.version pkg.version)]
       else []) =
      (batchDependencies pkg pkg.dependencies (str "dep") (storeIsLatest st pkg) ++
       batchDependencies pkg pkg.devDependencies (str "dev") (storeIsLatest st pkg)) ++
      (pkgKey pkg, Value.manifest pkg) ::
      (if storeIsLatest st pkg then
        [(str "!pkg-latest!" ++ escapeName pkg.name, Value.manifest pkg),
         (str "!latest-version!" ++ escapeName pkg.name, Value.version pkg.version)]
       else []) by simp]
  apply alGet_applyBatch_last
  intro p hp
  rcases hL : storeIsLatest st pkg with _ | _
  · rw [hL] at hp
    simp at hp
  · rw [hL] at hp
    simp only [if_true, List.mem_cons, List.not_mem_nil, or_false] at hp
    have hpk := pkgKey_starts pkg
    rcases hp with rfl | rfl
    · show str "!pkg-latest!" ++ escapeName pkg.name ≠ pkgKey pkg
      exact ne_of_starts_incompat
        (strStarts_self_append (str "!pkg-latest!") (escapeName pkg.name)) hpk
        (by decide) (by decide)
    · show str "!latest-version!" ++ escapeName pkg.name ≠ pkgKey pkg
      exact ne_of_starts_incompat
        (strStarts_self_append (str "!latest-version!") (escapeName pkg.name)) hpk
        (by decide) (by decide)

theorem storeOp_writes_index_dep {st : DbState} {pkg : Manifest} {D : Str}
    {sets : List (List Comparator)}
    (hnd : (pkg.dependencies.map Prod.fst).Nodup)
    (hmem : (D, some sets) ∈ pkg.dependencies) :
    alGet (ixKey (str "dep") D pkg) (storeOp st pkg).store =
      some (.encoded (encodeSets sets)) := by
  rw [storeOp_def]
  simp only
  rw [show ∀ (b1 b2 : List (Str × Value)) (x : Str × Value) (t : List (Str × Value)),
      b1 ++ b2 ++ [x] ++ t = b1 ++ (b2 ++ [x] ++ t) from by intro b1 b2 x t; simp,
    applyBatch_append]
  rw [alGet_applyBatch_notmem _ ?hrest]
  case hrest =>
    intro p hp
    have htarget := ixKey_starts (str "dep") D pkg
    simp only [List.mem_append, List.mem_singleton] at hp
    rcases hp with (hp | rfl) | hp
    · rcases batchDeps_key_starts p hp with hs | hs
      · exact ne_of_starts_incompat hs htarget (by decide) (by decide)
      · exact ne_of_starts_incompat hs htarget (by decide) (by decide)
    · exact ne_of_starts_incompat (pkgKey_starts pkg) htarget (by decide) (by decide)
    · rcases hL : storeIsLatest st pkg with _ | _
      · rw [hL] at hp
        simp at hp
      · rw [hL] at hp
        simp only [if_true, List.mem_cons, List.not_mem_nil, or_false] at hp
        rcases hp with rfl | rfl
        · show str "!pkg-latest!" ++ escapeName pkg.name ≠ _
          exact ne_of_starts_incompat
            (strStarts_self_append (str "!pkg-latest!") (escapeName pkg.name)) htarget
            (by decide) (by decide)
        · show str "!latest-version!" ++ escapeName pkg.name ≠ _
          exact ne_of_starts_incompat
            (strStarts_self_append (str "!latest-version!") (escapeName pkg.name)) htarget
            (by decide) (by decide)
  exact alGet_applyBatch_batchDeps st.store hnd hmem

theorem storeOp_writes_index_dev {st : DbState} {pkg : Manifest} {D : Str}
    {sets : List (List Comparator)}
    (hnd : (pkg.devDependencies.map Prod.fst).Nodup)
    (hmem : (D, some sets) ∈ pkg.devDependencies) :
    alGet (ixKey (str "dev") D pkg) (storeOp st pkg).store =
      some (.encoded (encodeSets sets)) := by
  rw [storeOp_def]
  simp only
  rw [show ∀ (b1 b2 : List (Str × Value)) (x : Str × Value) (t : List (Str × Value)),
      b1 ++ b2 ++ [x] ++ t = (b1 ++ b2) ++ ([x] ++ t) from by intro b1 b2 x t; simp,
    applyBatch_append]
  rw [alGet_applyBatch_notmem _ ?hrest]
  case hrest =>
    intro p hp
    have htarget := ixKey_starts (str "dev") D pkg
    simp only [List.mem_append, List.mem_singleton] at hp
    rcases hp with rfl | hp
    · exact ne_of_starts_incompat (pkgKey_starts pkg) htarget (by decide) (by decide)
    · rcases hL : storeIsLatest st pkg with _ | _
      · rw [hL] at hp
        simp at hp
      · rw [hL] at hp
        simp only [if_true, List.mem_cons, List.not_mem_nil, or_false] at hp
        rcases hp with rfl | rfl
        · show str "!pkg-latest!" ++ escapeName pkg.name ≠ _
          exact ne_of_starts_incompat
            (strStarts_self_append (str "!pkg-latest!") (escapeName pkg.name)) htarget
            (by decide) (by decide)
        · show str "!latest-version!" ++ escapeName pkg.name ≠ _
          exact ne_of_starts_incompat
            (strStarts_self_append (str "!latest-version!") (escapeName pkg.name)) htarget
            (by decide) (by decide)
  rw [applyBatch_append]
  exact alGet_applyBatch_batchDeps _ hnd hmem

theorem storeOp_writes_latest {st : DbState} {pkg : Manifest}
    (h : storeIsLatest st pkg = true) :
    alGet (str "!pkg-latest!" ++ escapeName pkg.name) (storeOp st pkg).store =
      some (.manifest pkg) ∧
    alGet (str "!latest-version!" ++ escapeName pkg.name) (storeOp st pkg).store =
      some (.version pkg.version) := by
  rw [storeOp_def, h]
  rw [if_pos rfl, if_pos rfl]
  constructor
  · rw [show ∀ (b1 b2 : List (Str × Value)) (x pl lv : Str × Value),
        b1 ++ b2 ++ [x] ++ [pl, lv] = (b1 ++ b2 ++ [x]) ++ pl :: [lv] from
        by intro b1 b2 x pl lv; simp]
    apply alGet_applyBatch_last
    intro p hp
    rcases List.mem_singleton.mp hp with rfl
    exact fun he => ne_of_starts_incompat
      (strStarts_self_append (str "!latest-version!") (escapeName pkg.name))
      (strStarts_self_append (str "!pkg-latest!") (escapeName pkg.name))
      (by decide) (by decide) he
  · rw [show ∀ (b1 b2 : List (Str × Value)) (x pl lv : Str × Value),
        b1 ++ b2 ++ [x] ++ [pl, lv] = (b1 ++ b2 ++ [x] ++ [pl]) ++ lv :: [] from
        by intro b1 b2 x pl lv; simp]
    apply alGet_applyBatch_last
    intro p hp
    simp at hp

/-! ## Claim C5: latest monotonicity -/

/-- C5: with the cache coherent with the store, a `store` call only ever
replaces the value at `!latest-version!N` by a strictly greater version under
the bignum-safe comparison; and a store of a manifest whose version is not
strictly greater than the current latest writes no key in any latest family
and leaves the cache untouched. -/
theorem c5_latest_monotonicity :
    (∀ (st : DbState) (pkg : Manifest) (N : Str) (vOld vNew : Sem),
      coherentB st = true →
      alGet (str "!latest-version!" ++ escapeName N) st.store = some (.version vOld) →
      alGet (str "!latest-version!" ++ escapeName N) (storeOp st pkg).store =
        some (.version vNew) →
      vNew = vOld ∨ semverGt vNew vOld = true) ∧
    (∀ (st : DbState) (pkg : Manifest) (latest : Sem),
      getLatestVersion st pkg.name = some latest →
      semverGt pkg.version latest = false →
      (storeOp st pkg).cache = st.cache ∧
      ∀ k, (strStarts (str "!pkg-latest!") k = true ∨
            strStarts (str "!latest-version!") k = true ∨
            strStarts (str "!index-latest!") k = true) →
        alGet k (storeOp st pkg).store = alGet k st.store) := by
  constructor
  · intro st pkg N vOld vNew hcoh hold hnew
    by_cases heqe : escapeName pkg.name = escapeName N
    · have hget : getLatestVersion st pkg.name = some vOld := by
        unfold getLatestVersion
        cases hc : alGet pkg.name st.cache with
        | some c =>
          simp only [coherentB, List.all_eq_true, decide_eq_true_eq] at hcoh
          have h2 := hcoh (pkg.name, c) (alGet_mem hc)
          simp only at h2
          rw [heqe, hold] at h2
          simp only [Option.some.injEq, Value.version.injEq] at h2
          rw [h2]
        | none =>
          rw [heqe, hold]
      rcases hL : storeIsLatest st pkg with _ | _
      · have hframe := (storeOp_latest_frame hL).2
          (str "!latest-version!" ++ escapeName N)
          (Or.inr (Or.inl (strStarts_self_append _ _)))
        rw [hframe, hold] at hnew
        simp only [Option.some.injEq, Value.version.injEq] at hnew
        exact Or.inl hnew.symm
      · have hw := (storeOp_writes_latest hL).2
        rw [heqe] at hw
        rw [hw] at hnew
        simp only [Option.some.injEq, Value.version.injEq] at hnew
        right
        have hLgt : semverGt pkg.version vOld = true := by
          have : storeIsLatest st pkg = semverGt pkg.version vOld := by
            unfold storeIsLatest
            rw [hget]
          rw [← this, hL]
        rw [hnew] at hLgt
        exact hLgt
    · have hframe : alGet (str "!latest-version!" ++ escapeName N)
          (storeOp st pkg).store =
          alGet (str "!latest-version!" ++ escapeName N) st.store := by
        rw [storeOp_def]
        apply alGet_applyBatch_notmem
        intro p hp
        have hts : strStarts (str "!latest-version!")
            (str "!latest-version!" ++ escapeName N) = true :=
          strStarts_self_append _ _
        simp only [List.mem_append, List.mem_singleton] at hp
        rcases hp with ((hp | hp) | rfl) | hp
        · rcases batchDeps_key_starts p hp with hs | hs <;>
            exact ne_of_starts_incompat hs hts (by decide) (by decide)
        · rcases batchDeps_key_starts p hp with hs | hs <;>
            exact ne_of_starts_incompat hs hts (by decide) (by decide)
        · exact ne_of_starts_incompat (pkgKey_starts pkg) hts (by decide) (by decide)
        · rcases hL : storeIsLatest st pkg with _ | _
          · rw [hL] at hp
            simp at hp
          · rw [hL] at hp
            simp only [if_true, List.mem_cons, List.not_mem_nil, or_false] at hp
            rcases hp with rfl | rfl
            · show str "!pkg-latest!" ++ escapeName pkg.name ≠ _
              exact ne_of_starts_incompat
                (strStarts_self_append (str "!pkg-latest!") (escapeName pkg.name)) hts
                (by decide) (by decide)
            · show str "!latest-version!" ++ escapeName pkg.name ≠ _
              exact fun he => heqe (List.append_cancel_left he)
      rw [hframe, hold] at hnew
      simp only [Option.some.injEq, Value.version.injEq] at hnew
      exact Or.inl hnew.symm
  · intro st pkg latest hget hgt
    have hL : storeIsLatest st pkg = false := by
      unfold storeIsLatest
      rw [hget]
      exact hgt
    exact storeOp_latest_frame hL

/-- C5 witness: storing `a@1.0.0` over a database whose latest `a` is `2.0.0`
leaves the latest-version pointer and the latest families untouched. -/
theorem c5_witness :
    ((⟨2, 0, 0⟩ : Sem) = ⟨2, 0, 0⟩ ∨ semverGt ⟨2, 0, 0⟩ ⟨2, 0, 0⟩ = true) ∧
    (storeOp ⟨[(str "!latest-version!a", .version ⟨2, 0, 0⟩)], []⟩
        ⟨str "a", ⟨1, 0, 0⟩, [], []⟩).cache = [] ∧
    alGet (str "!pkg-latest!a")
        (storeOp ⟨[(str "!latest-version!a", .version ⟨2, 0, 0⟩)], []⟩
          ⟨str "a", ⟨1, 0, 0⟩, [], []⟩).store =
      alGet (str "!pkg-latest!a") [(str "!latest-version!a", .version ⟨2, 0, 0⟩)] :=
  ⟨c5_latest_monotonicity.1 ⟨[(str "!latest-version!a", .version ⟨2, 0, 0⟩)], []⟩
      ⟨str "a", ⟨1, 0, 0⟩, [], []⟩ (str "a") ⟨2, 0, 0⟩ ⟨2, 0, 0⟩
      (by decide) (by decide) (by decide),
   (c5_latest_monotonicity.2 ⟨[(str "!latest-version!a", .version ⟨2, 0, 0⟩)], []⟩
      ⟨str "a", ⟨1, 0, 0⟩, [], []⟩ ⟨2, 0, 0⟩ (by decide) (by decide)).1,
   (c5_latest_monotonicity.2 ⟨[(str "!latest-version!a", .version ⟨2, 0, 0⟩)], []⟩
      ⟨str "a", ⟨1, 0, 0⟩, [], []⟩ ⟨2, 0, 0⟩ (by decide) (by decide)).2
     (str "!pkg-latest!a") (Or.inl (by decide))⟩

theorem semverGt_irrefl (v : Sem) : semverGt v v = false := by
  unfold semverGt semLt
  simp only [decide_eq_false_iff_not]
  omega

/-- No key under the unparseable dependency's per-version or latest index
fronts is touched by the store. -/
theorem storeOp_unparseable_frame {st : DbState} {pkg : Manifest} {D : Str}
    (hnd : (pkg.dependencies.map Prod.fst).Nodup)
    (hmem : (D, none) ∈ pkg.dependencies) :
    ∀ k, (strStarts (str "!index!" ++ str "dep" ++ ['!'] ++ escapeName D ++ ['!']) k = true ∨
          strStarts (str "!index-latest!" ++ str "dep" ++ ['!'] ++ escapeName D ++ ['!']) k = true) →
      alGet k (storeOp st pkg).store = alGet k st.store := by
  intro k hk
  rw [storeOp_def]
  apply alGet_applyBatch_notmem
  intro p hp
  simp only [List.mem_append, List.mem_singleton] at hp
  have hDne' : ∀ dep' sets', (dep', some sets') ∈ pkg.dependencies →
      escapeName dep' ≠ escapeName D := by
    intro dep' sets' hdmem he
    have hde : dep' = D := escapeName_injective he
    rw [hde] at hdmem
    have := nodup_fst_eq hnd hdmem hmem
    simp at this
  rcases hk with hk | hk
  · have hkw : strStarts (str "!index!" ++ str "dep" ++ ['!']) k = true := by
      rw [show str "!index!" ++ str "dep" ++ ['!'] ++ escapeName D ++ ['!'] =
        (str "!index!" ++ str "dep" ++ ['!']) ++ (escapeName D ++ ['!']) from by simp] at hk
      exact starts_front_of_starts hk
    rcases hp with ((hp | hp) | rfl) | hp
    · obtain ⟨dep', sets', hdmem, hkey | hkey⟩ := batchDeps_key_cases p hp
      · obtain ⟨t0, rfl⟩ := strStarts_exists hk
        rw [hkey, ixKey_eq]
        rw [show str "!index!" ++ str "dep" ++ ['!'] ++ escapeName D ++ ['!'] ++ t0 =
          (str "!index!" ++ str "dep" ++ ['!']) ++ (escapeName D ++ '!' :: t0) from by simp]
        exact key_ne_of_dep_ne (escapeName_no_bang D) (escapeName_no_bang dep')
          (hDne' dep' sets' hdmem)
      · rw [hkey]
        exact ne_of_starts_incompat (ixLatestKey_starts (str "dep") dep' pkg) hkw
          (by decide) (by decide)
    · rcases batchDeps_key_starts p hp with hs | hs <;>
        exact ne_of_starts_incompat hs hkw (by decide) (by decide)
    · exact ne_of_starts_incompat (pkgKey_starts pkg) hkw (by decide) (by decide)
    · rcases hL : storeIsLatest st pkg with _ | _
      · rw [hL] at hp
        simp at hp
      · rw [hL] at hp
        simp only [if_true, List.mem_cons, List.not_mem_nil, or_false] at hp
        rcases hp with rfl | rfl
        · show str "!pkg-latest!" ++ escapeName pkg.name ≠ _
          exact ne_of_starts_incompat
            (strStarts_self_append (str "!pkg-latest!") (escapeName pkg.name)) hkw
            (by decide) (by decide)
        · show str "!latest-version!" ++ escapeName pkg.name ≠ _
          exact ne_of_starts_incompat
            (strStarts_self_append (str "!latest-version!") (escapeName pkg.name)) hkw
            (by decide) (by decide)
  · have hkw : strStarts (str "!index-latest!" ++ str "dep" ++ ['!']) k = true := by
      rw [show str "!index-latest!" ++ str "dep" ++ ['!'] ++ escapeName D ++ ['!'] =
        (str "!index-latest!" ++ str "dep" ++ ['!']) ++ (escapeName D ++ ['!']) from by simp] at hk
      exact starts_front_of_starts hk
    rcases hp with ((hp | hp) | rfl) | hp
    · obtain ⟨dep', sets', hdmem, hkey | hkey⟩ := batchDeps_key_cases p hp
      · rw [hkey]
        exact ne_of_starts_incompat (ixKey_starts (str "dep") dep' pkg) hkw
          (by decide) (by decide)
      · obtain ⟨t0, rfl⟩ := strStarts_exists hk
        rw [hkey, ixLatestKey_eq]
        rw [show str "!index-latest!" ++ str "dep" ++ ['!'] ++ escapeName D ++ ['!'] ++ t0 =
          (str "!index-latest!" ++ str "dep" ++ ['!']) ++ (escapeName D ++ '!' :: t0) from by simp]
        exact key_ne_of_dep_ne (escapeName_no_bang D) (escapeName_no_bang dep')
          (hDne' dep' sets' hdmem)
    · rcases batchDeps_key_starts p hp with hs | hs <;>
        exact ne_of_starts_incompat hs hkw (by decide) (by decide)
    · exact ne_of_starts_incompat (pkgKey_starts pkg) hkw (by decide) (by decide)
    · rcases hL : storeIsLatest st pkg with _ | _
      · rw [hL] at hp
        simp at hp
      · rw [hL] at hp
        simp only [if_true, List.mem_cons, List.not_mem_nil, or_false] at hp
        rcases hp with rfl | rfl
        · show str "!pkg-latest!" ++ escapeName pkg.name ≠ _
          exact ne_of_starts_incompat
            (strStarts_self_append (str "!pkg-latest!") (escapeName pkg.name)) hkw
            (by decide) (by decide)
        · show str "!latest-version!" ++ escapeName pkg.name ≠ _
          exact ne_of_starts_incompat
            (strStarts_self_append (str "!latest-version!") (escapeName pkg.name)) hkw
            (by decide) (by decide)

/-! ## Claim C7: unparseable ranges are dropped, the manifest is stored -/

/-- C7: a manifest with an unparseable dependency range is still stored — the
`!pkg!N@V` key (and the latest-family keys when it is the latest) is written —
while no `!index!` or `!index-latest!` key under that dependency is created,
and every other parseable dependency of the manifest is still indexed. -/
theorem c7_unparseable_range (st : DbState) (pkg : Manifest) (D : Str)
    (hnd : (pkg.dependencies.map Prod.fst).Nodup)
    (hmem : (D, none) ∈ pkg.dependencies) :
    alGet (pkgKey pkg) (storeOp st pkg).store = some (.manifest pkg) ∧
    (storeIsLatest st pkg = true →
      alGet (str "!pkg-latest!" ++ escapeName pkg.name) (storeOp st pkg).store =
        some (.manifest pkg) ∧
      alGet (str "!latest-version!" ++ escapeName pkg.name) (storeOp st pkg).store =
        some (.version pkg.version)) ∧
    (∀ k, (strStarts (str "!index!" ++ str "dep" ++ ['!'] ++ escapeName D ++ ['!']) k = true ∨
           strStarts (str "!index-latest!" ++ str "dep" ++ ['!'] ++ escapeName D ++ ['!']) k = true) →
       alGet k (storeOp st pkg).store = alGet k st.store) ∧
    (∀ D' sets, (D', some sets) ∈ pkg.dependencies →
       alGet (ixKey (str "dep") D' pkg) (storeOp st pkg).store =
         some (.encoded (encodeSets sets))) :=
  ⟨storeOp_writes_pkg st pkg,
   fun hL => storeOp_writes_latest hL,
   storeOp_unparseable_frame hnd hmem,
   fun _ _ hdmem => storeOp_writes_index_dep hnd hdmem⟩

/-- C7 witness: storing a manifest whose `bad` range is unparseable writes the
manifest and the parseable `b` index, and creates nothing under `bad`. -/
theorem c7_witness :
    alGet (pkgKey ⟨str "a", ⟨1, 0, 0⟩, [(str "bad", none), (str "b", some [[⟨Op.ge, ⟨1, 0, 0⟩⟩]])], []⟩)
      (storeOp ⟨[], []⟩ ⟨str "a", ⟨1, 0, 0⟩, [(str "bad", none), (str "b", some [[⟨Op.ge, ⟨1, 0, 0⟩⟩]])], []⟩).store =
      some (.manifest ⟨str "a", ⟨1, 0, 0⟩, [(str "bad", none), (str "b", some [[⟨Op.ge, ⟨1, 0, 0⟩⟩]])], []⟩) ∧
    alGet (str "!index!" ++ str "dep" ++ ['!'] ++ escapeName (str "bad") ++ ['!'])
      (storeOp ⟨[], []⟩ ⟨str "a", ⟨1, 0, 0⟩, [(str "bad", none), (str "b", some [[⟨Op.ge, ⟨1, 0, 0⟩⟩]])], []⟩).store =
      alGet (str "!index!" ++ str "dep" ++ ['!'] ++ escapeName (str "bad") ++ ['!'])
        ([] : Store) ∧
    alGet (ixKey (str "dep") (str "b") ⟨str "a", ⟨1, 0, 0⟩, [(str "bad", none), (str "b", some [[⟨Op.ge, ⟨1, 0, 0⟩⟩]])], []⟩)
      (storeOp ⟨[], []⟩ ⟨str "a", ⟨1, 0, 0⟩, [(str "bad", none), (str "b", some [[⟨Op.ge, ⟨1, 0, 0⟩⟩]])], []⟩).store =
      some (.encoded (encodeSets [[⟨Op.ge, ⟨1, 0, 0⟩⟩]])) :=
  ⟨(c7_unparseable_range ⟨[], []⟩ _ (str "bad") (by decide) (by decide)).1,
   (c7_unparseable_range ⟨[], []⟩ _ (str "bad") (by decide) (by decide)).2.2.1 _
     (Or.inl (strStarts_self_append _ [])),
   (c7_unparseable_range ⟨[], []⟩ _ (str "bad") (by decide) (by decide)).2.2.2
     (str "b") _ (by decide)⟩

/-! ## Claim C10: re-storing the current latest version -/

/-- C10: storing a manifest whose version equals the current latest is treated
as not-latest (the comparison is strict): only the per-version keys
`!pkg!N@V` and `!index!K!D!N@V` are written, while `!pkg-latest!`,
`!latest-version!`, every `!index-latest!` key and the cache stay unchanged. -/
theorem c10_equal_version_store (st : DbState) (pkg : Manifest)
    (hget : getLatestVersion st pkg.name = some pkg.version) :
    (storeOp st pkg).cache = st.cache ∧
    (∀ k, (strStarts (str "!pkg-latest!") k = true ∨
           strStarts (str "!latest-version!") k = true ∨
           strStarts (str "!index-latest!") k = true) →
       alGet k (storeOp st pkg).store = alGet k st.store) ∧
    alGet (pkgKey pkg) (storeOp st pkg).store = some (.manifest pkg) ∧
    ((pkg.dependencies.map Prod.fst).Nodup →
      ∀ D sets, (D, some sets) ∈ pkg.dependencies →
        alGet (ixKey (str "dep") D pkg) (storeOp st pkg).store =
          some (.encoded (encodeSets sets))) ∧
    ((pkg.devDependencies.map Prod.fst).Nodup →
      ∀ D sets, (D, some sets) ∈ pkg.devDependencies →
        alGet (ixKey (str "dev") D pkg) (storeOp st pkg).store =
          some (.encoded (encodeSets sets))) := by
  have hL : storeIsLatest st pkg = false := by
    unfold storeIsLatest
    rw [hget]
    exact semverGt_irrefl pkg.version
  obtain ⟨h1, h2⟩ := storeOp_latest_frame hL
  exact ⟨h1, h2, storeOp_writes_pkg st pkg,
    fun hnd _ _ hmem => storeOp_writes_index_dep hnd hmem,
    fun hnd _ _ hmem => storeOp_writes_index_dev hnd hmem⟩

/-- C10 witness: re-storing `a@1.0.0` while the cache already holds `a ↦
1.0.0` writes the per-version keys only. -/
theorem c10_witness :
    (storeOp ⟨[], [(str "a", ⟨1, 0, 0⟩)]⟩
        ⟨str "a", ⟨1, 0, 0⟩, [(str "b", some [[⟨Op.ge, ⟨1, 0, 0⟩⟩]])], []⟩).cache =
      [(str "a", (⟨1, 0, 0⟩ : Sem))] ∧
    alGet (str "!pkg-latest!a")
        (storeOp ⟨[], [(str "a", ⟨1, 0, 0⟩)]⟩
          ⟨str "a", ⟨1, 0, 0⟩, [(str "b", some [[⟨Op.ge, ⟨1, 0, 0⟩⟩]])], []⟩).store =
      alGet (str "!pkg-latest!a") ([] : Store) ∧
    alGet (pkgKey ⟨str "a", ⟨1, 0, 0⟩, [(str "b", some [[⟨Op.ge, ⟨1, 0, 0⟩⟩]])], []⟩)
        (storeOp ⟨[], [(str "a", ⟨1, 0, 0⟩)]⟩
          ⟨str "a", ⟨1, 0, 0⟩, [(str "b", some [[⟨Op.ge, ⟨1, 0, 0⟩⟩]])], []⟩).store =
      some (.manifest ⟨str "a", ⟨1, 0, 0⟩, [(str "b", some [[⟨Op.ge, ⟨1, 0, 0⟩⟩]])], []⟩) ∧
    alGet (ixKey (str "dep") (str "b") ⟨str "a", ⟨1, 0, 0⟩, [(str "b", some [[⟨Op.ge, ⟨1, 0, 0⟩⟩]])], []⟩)
        (storeOp ⟨[], [(str "a", ⟨1, 0, 0⟩)]⟩
          ⟨str "a", ⟨1, 0, 0⟩, [(str "b", some [[⟨Op.ge, ⟨1, 0, 0⟩⟩]])], []⟩).store =
      some (.encoded (encodeSets [[⟨Op.ge, ⟨1, 0, 0⟩⟩]])) :=
  ⟨(c10_equal_version_store ⟨[], [(str "a", ⟨1, 0, 0⟩)]⟩ _ (by decide)).1,
   (c10_equal_version_store ⟨[], [(str "a", ⟨1, 0, 0⟩)]⟩ _ (by decide)).2.1
     (str "!pkg-latest!a") (Or.inl (by decide)),
   (c10_equal_version_store ⟨[], [(str "a", ⟨1, 0, 0⟩)]⟩ _ (by decide)).2.2.1,
   (c10_equal_version_store ⟨[], [(str "a", ⟨1, 0, 0⟩)]⟩ _ (by decide)).2.2.2.1
     (by decide) (str "b") _ (by decide)⟩

/-! ## Claim C6: the lazy-cleanup protocol -/

theorem recordStep2_false_core {dev : Bool} {ename : Str} {s : Store} {r : Str × Value}
    {em : Option Manifest} {s' : Store}
    (hok : recordStep2 false dev ename s r = .ok (em, s')) :
    s' = s ∨ (s' = alErase r.1 s ∧ em = none ∧
      ∃ pkg, alGet (str "!pkg-latest!" ++ afterLastBang r.1) s = some (.manifest pkg) ∧
        alGet ename (if dev then pkg.devDependencies else pkg.dependencies) = none ∧
        alGet (str "!latest-version!" ++ afterLastBang r.1) s =
          some (.version pkg.version)) := by
  cases dev with
  | false =>
    simp only [recordStep2, Bool.false_eq_true, if_false] at hok
    split at hok
    · exact absurd hok (by simp)
    · rename_i pkg hfetch
      split at hok
      · simp only [Except.ok.injEq, Prod.mk.injEq] at hok
        exact Or.inl hok.2.symm
      · rename_i hdeps
        split at hok
        · exact absurd hok (by simp)
        · rename_i w hlv
          split at hok
          · rename_i hw
            simp only [Except.ok.injEq, Prod.mk.injEq] at hok
            exact Or.inr ⟨hok.2.symm, hok.1.symm, pkg, hfetch,
              by simpa using hdeps, by rw [hlv, hw]⟩
          · simp only [Except.ok.injEq, Prod.mk.injEq] at hok
            exact Or.inl hok.2.symm
    · exact absurd hok (by simp)
  | true =>
    simp only [recordStep2, Bool.false_eq_true, if_false, eq_self_iff_true, if_true] at hok
    split at hok
    · exact absurd hok (by simp)
    · rename_i pkg hfetch
      split at hok
      · simp only [Except.ok.injEq, Prod.mk.injEq] at hok
        exact Or.inl hok.2.symm
      · rename_i hdeps
        split at hok
        · exact absurd hok (by simp)
        · rename_i w hlv
          split at hok
          · rename_i hw
            simp only [Except.ok.injEq, Prod.mk.injEq] at hok
            exact Or.inr ⟨hok.2.symm, hok.1.symm, pkg, hfetch,
              by simpa using hdeps, by rw [hlv, hw]⟩
          · simp only [Except.ok.injEq, Prod.mk.injEq] at hok
            exact Or.inl hok.2.symm
    · exact absurd hok (by simp)

/-- C6: for a latest-only scan record, the transform either leaves the store
untouched or deletes exactly the offending `!index-latest!` scan key — and it
deletes only when the re-read `!latest-version!dependent` equals the version
of the `!pkg-latest!` manifest fetched for that record and that manifest no
longer declares the queried name; if the re-read differs, nothing is deleted;
manifests, latest-version pointers and all other keys are never deleted. -/
theorem c6_lazy_cleanup (dev : Bool) (ename : Str) (bnds : Option (Str × Str))
    (s : Store) (r : Str × Value) (em : Option Manifest) (s' : Store)
    (hstart : strStarts (str "!index-latest!") r.1 = true)
    (hok : processRecord false dev ename bnds s r = .ok (em, s')) :
    (∀ k, k ≠ r.1 → alGet k s' = alGet k s) ∧
    (∀ k, (strStarts (str "!pkg!") k = true ∨ strStarts (str "!pkg-latest!") k = true ∨
           strStarts (str "!latest-version!") k = true) → alGet k s' = alGet k s) ∧
    (s' = s ∨
      (s' = alErase r.1 s ∧ em = none ∧ alGet r.1 s' = none ∧
        ∃ pkg, alGet (str "!pkg-latest!" ++ afterLastBang r.1) s = some (.manifest pkg) ∧
          alGet ename (if dev then pkg.devDependencies else pkg.dependencies) = none ∧
          alGet (str "!latest-version!" ++ afterLastBang r.1) s =
            some (.version pkg.version))) ∧
    (∀ pkg, alGet (str "!pkg-latest!" ++ afterLastBang r.1) s = some (.manifest pkg) →
       alGet (str "!latest-version!" ++ afterLastBang r.1) s ≠ some (.version pkg.version) →
       s' = s) := by
  have hcore : s' = s ∨ (s' = alErase r.1 s ∧ em = none ∧
      ∃ pkg, alGet (str "!pkg-latest!" ++ afterLastBang r.1) s = some (.manifest pkg) ∧
        alGet ename (if dev then pkg.devDependencies else pkg.dependencies) = none ∧
        alGet (str "!latest-version!" ++ afterLastBang r.1) s =
          some (.version pkg.version)) := by
    rcases bnds with _ | ⟨l, u⟩
    · exact recordStep2_false_core hok
    · simp only [processRecord, Bool.false_eq_true, if_false] at hok
      rcases hr2 : r.2 with m | v | e | ⟨ver, e⟩
      · rw [hr2] at hok
        simp at hok
      · rw [hr2] at hok
        simp at hok
      · rw [hr2] at hok
        simp at hok
      · rw [hr2] at hok
        simp only [] at hok
        by_cases hm : matchSets e l u = true
        · rw [if_pos hm] at hok
          exact recordStep2_false_core hok
        · rw [if_neg hm] at hok
          simp only [Except.ok.injEq, Prod.mk.injEq] at hok
          exact Or.inl hok.2.symm
  have hframe : ∀ k, k ≠ r.1 → alGet k s' = alGet k s := by
    intro k hk
    rcases hcore with rfl | ⟨rfl, _⟩
    · rfl
    · exact alGet_alErase_other hk s
  have hne2 : ∀ k, (strStarts (str "!pkg!") k = true ∨
      strStarts (str "!pkg-latest!") k = true ∨
      strStarts (str "!latest-version!") k = true) → k ≠ r.1 := by
    intro k hk
    rcases hk with hk | hk | hk <;>
      exact ne_of_starts_incompat hk hstart (by decide) (by decide)
  refine ⟨hframe, fun k hk => hframe k (hne2 k hk), ?_, ?_⟩
  · rcases hcore with rfl | ⟨h1, h2, hex⟩
    · exact Or.inl rfl
    · exact Or.inr ⟨h1, h2, by rw [h1]; exact alGet_alErase_self r.1 s, hex⟩
  · intro pkg hfetch hnever
    rcases hcore with rfl | ⟨_, _, pkg', hfetch', _, hlv'⟩
    · rfl
    · rw [hfetch] at hfetch'
      simp only [Option.some.injEq, Value.manifest.injEq] at hfetch'
      rw [← hfetch'] at hlv'
      exact absurd hlv' hnever

/-- C6 witness: the cleanup applied to a stale `!index-latest!dep!b!a` record
whose latest `a` manifest no longer declares `b`; the companion manifest key
is untouched. -/
theorem c6_witness :
    alGet (str "!pkg-latest!a")
        (alErase (str "!index-latest!dep!b!a")
          ([(str "!pkg-latest!a", .manifest ⟨str "a", ⟨2, 0, 0⟩, [], []⟩),
            (str "!latest-version!a", .version ⟨2, 0, 0⟩),
            (str "!index-latest!dep!b!a", .latestRec ⟨1, 0, 0⟩ [])] : Store)) =
      alGet (str "!pkg-latest!a")
        ([(str "!pkg-latest!a", .manifest ⟨str "a", ⟨2, 0, 0⟩, [], []⟩),
          (str "!latest-version!a", .version ⟨2, 0, 0⟩),
          (str "!index-latest!dep!b!a", .latestRec ⟨1, 0, 0⟩ [])] : Store) :=
  (c6_lazy_cleanup false (str "b") none
      ([(str "!pkg-latest!a", .manifest ⟨str "a", ⟨2, 0, 0⟩, [], []⟩),
        (str "!latest-version!a", .version ⟨2, 0, 0⟩),
        (str "!index-latest!dep!b!a", .latestRec ⟨1, 0, 0⟩ [])] : Store)
      (str "!index-latest!dep!b!a", .latestRec ⟨1, 0, 0⟩ []) none
      (alErase (str "!index-latest!dep!b!a")
        ([(str "!pkg-latest!a", .manifest ⟨str "a", ⟨2, 0, 0⟩, [], []⟩),
          (str "!latest-version!a", .version ⟨2, 0, 0⟩),
          (str "!index-latest!dep!b!a", .latestRec ⟨1, 0, 0⟩ [])] : Store))
      (by decide) rfl).2.1
    (str "!pkg-latest!a") (Or.inr (Or.inl (by decide)))

/-! ## Claim C8: per-version index stability -/

theorem mem_insertSorted {k k' : Str} :
    ∀ {l : List Str}, k ∈ insertSorted k' l ↔ k = k' ∨ k ∈ l := by
  intro l
  induction l with
  | nil => simp [insertSorted]
  | cons h t ih =>
    unfold insertSorted
    split_ifs with hc
    · simp
    · simp only [List.mem_cons, ih]
      tauto

theorem mem_sortKeys {k : Str} : ∀ {l : List Str}, k ∈ sortKeys l ↔ k ∈ l := by
  intro l
  induction l with
  | nil => simp [sortKeys]
  | cons h t ih =>
    show k ∈ insertSorted h (sortKeys t) ↔ _
    rw [mem_insertSorted, ih]
    simp

theorem scanRecords_mem {s : Store} {lo hi : Str} {lim : Option Nat} {r : Str × Value}
    (hr : r ∈ scanRecords s lo hi lim) :
    strLt lo r.1 = true ∧ strLt r.1 hi = true ∧ alGet r.1 s = some r.2 := by
  unfold scanRecords at hr
  simp only [List.mem_filterMap] at hr
  obtain ⟨k, hk, hv⟩ := hr
  cases hg : alGet k s with
  | none => rw [hg] at hv; simp at hv
  | some v =>
    rw [hg] at hv
    simp only [Option.map_some', Option.some.injEq] at hv
    have hk2 : k ∈ sortKeys (((s.map Prod.fst).dedup).filter
        (fun k => strLt lo k && strLt k hi)) := by
      rcases lim with _ | n
      · exact hk
      · exact List.take_subset n _ hk
    rw [mem_sortKeys] at hk2
    have hb := List.of_mem_filter hk2
    simp only [Bool.and_eq_true] at hb
    rw [← hv]
    exact ⟨hb.1, hb.2, hg⟩

theorem recordStep2_all_cases {dev : Bool} {ename : Str} {s : Store} {r : Str × Value}
    {em : Option Manifest} {s' : Store}
    (h : recordStep2 true dev ename s r = .ok (em, s')) :
    s' = s ∧ ∃ pkg, em = some pkg ∧ fetchAll s r = some pkg := by
  have hre : recordStep2 true dev ename s r =
      (match alGet (str "!pkg!" ++ afterLastBang r.1) s with
       | none => Except.error (str "NotFoundError")
       | some (.manifest pkg) => Except.ok (some pkg, s)
       | some _ => Except.error (str "TypeError")) := rfl
  rw [hre] at h
  split at h
  · exact absurd h (by simp)
  · rename_i pkg hfetch
    simp only [Except.ok.injEq, Prod.mk.injEq] at h
    refine ⟨h.2.symm, pkg, h.1.symm, ?_⟩
    unfold fetchAll
    rw [hfetch]
  · exact absurd h (by simp)

theorem processRecord_all_cases {dev : Bool} {ename : Str} {bnds : Option (Str × Str)}
    {s : Store} {r : Str × Value} {em : Option Manifest} {s' : Store}
    (h : processRecord true dev ename bnds s r = .ok (em, s')) :
    s' = s ∧ ((recPasses bnds r = false ∧ em = none) ∨
      (recPasses bnds r = true ∧ ∃ pkg, em = some pkg ∧ fetchAll s r = some pkg)) := by
  rcases bnds with _ | ⟨l, u⟩
  · obtain ⟨hs, hex⟩ := recordStep2_all_cases h
    exact ⟨hs, Or.inr ⟨rfl, hex⟩⟩
  · simp only [processRecord, eq_self_iff_true, if_true] at h
    rcases hr2 : r.2 with m | v | e | ⟨ver, e⟩
    · rw [hr2] at h
      simp at h
    · rw [hr2] at h
      simp at h
    · rw [hr2] at h
      simp only [] at h
      by_cases hm : matchSets e l u = true
      · rw [if_pos hm] at h
        obtain ⟨hs, hex⟩ := recordStep2_all_cases h
        refine ⟨hs, Or.inr ⟨?_, hex⟩⟩
        unfold recPasses
        rw [hr2]
        exact hm
      · rw [if_neg hm] at h
        simp only [Except.ok.injEq, Prod.mk.injEq] at h
        refine ⟨h.2.symm, Or.inl ⟨?_, h.1.symm⟩⟩
        unfold recPasses
        rw [hr2]
        simpa using hm
    · rw [hr2] at h
      simp at h

theorem processRecord_false_core {dev : Bool} {ename : Str} {bnds : Option (Str × Str)}
    {s : Store} {r : Str × Value} {em : Option Manifest} {s' : Store}
    (hok : processRecord false dev ename bnds s r = .ok (em, s')) :
    s' = s ∨ s' = alErase r.1 s := by
  rcases bnds with _ | ⟨l, u⟩
  · rcases recordStep2_false_core hok with hc | ⟨hc, _⟩
    · exact Or.inl hc
    · exact Or.inr hc
  · simp only [processRecord, Bool.false_eq_true, if_false] at hok
    rcases hr2 : r.2 with m | v | e | ⟨ver, e⟩
    · rw [hr2] at hok
      simp at hok
    · rw [hr2] at hok
      simp at hok
    · rw [hr2] at hok
      simp at hok
    · rw [hr2] at hok
      simp only [] at hok
      by_cases hm : matchSets e l u = true
      · rw [if_pos hm] at hok
        rcases recordStep2_false_core hok with hc | ⟨hc, _⟩
        · exact Or.inl hc
        · exact Or.inr hc
      · rw [if_neg hm] at hok
        simp only [Except.ok.injEq, Prod.mk.injEq] at hok
        exact Or.inl hok.2.symm

theorem runRecords_all_state {dev : Bool} {ename : Str} {bnds : Option (Str × Str)} :
    ∀ {recs : List (Str × Value)} {s : Store} {res : Except Str (List Manifest)}
      {sf : Store}, runRecords true dev ename bnds s recs = (res, sf) → sf = s := by
  intro recs
  induction recs with
  | nil =>
    intro s res sf h
    simp only [runRecords, Prod.mk.injEq] at h
    exact h.2.symm
  | cons r rs ih =>
    intro s res sf h
    simp only [runRecords] at h
    split at h
    · rename_i m hpr
      simp only [Prod.mk.injEq] at h
      exact h.2.symm
    · rename_i em s1 hpr
      split at h
      · rename_i ms2 sf2 heq
        simp only [Prod.mk.injEq] at h
        rw [← h.2]
        exact (ih heq).trans (processRecord_all_cases hpr).1
      · rename_i heq2
        exact (ih h).trans (processRecord_all_cases hpr).1

theorem runRecords_false_frame {dev : Bool} {ename : Str} {bnds : Option (Str × Str)} :
    ∀ {recs : List (Str × Value)} {s : Store} {res : Except Str (List Manifest)}
      {sf : Store}, runRecords false dev ename bnds s recs = (res, sf) →
      ∀ k, (∀ r ∈ recs, k ≠ r.1) → alGet k sf = alGet k s := by
  intro recs
  induction recs with
  | nil =>
    intro s res sf h k _
    simp only [runRecords, Prod.mk.injEq] at h
    rw [← h.2]
  | cons r rs ih =>
    intro s res sf h k hk
    simp only [runRecords] at h
    split at h
    · rename_i m hpr
      simp only [Prod.mk.injEq] at h
      rw [← h.2]
    · rename_i em s1 hpr
      have hstep : alGet k s1 = alGet k s := by
        rcases processRecord_false_core hpr with rfl | rfl
        · rfl
        · exact alGet_alErase_other (hk r (List.mem_cons_self r rs)) s
      have hrest : ∀ res2 sf2, runRecords false dev ename bnds s1 rs = (res2, sf2) →
          alGet k sf2 = alGet k s1 := fun res2 sf2 hrr =>
        ih hrr k (fun r' hr' => hk r' (List.mem_cons_of_mem r hr'))
      split at h
      · rename_i ms2 sf2 heq
        simp only [Prod.mk.injEq] at h
        rw [← h.2]
        rw [hrest _ _ heq, hstep]
      · rename_i heq2
        rw [hrest _ _ h, hstep]

theorem runRecords_all_ok {dev : Bool} {ename : Str} {bnds : Option (Str × Str)} :
    ∀ {recs : List (Str × Value)} {s : Store} {ms : List Manifest} {sf : Store},
      runRecords true dev ename bnds s recs = (.ok ms, sf) →
      ms = (recs.filter (recPasses bnds)).filterMap (fetchAll s) ∧
      ∀ r ∈ recs.filter (recPasses bnds), (fetchAll s r).isSome = true := by
  intro recs
  induction recs with
  | nil =>
    intro s ms sf h
    simp only [runRecords, Prod.mk.injEq, Except.ok.injEq] at h
    refine ⟨?_, by simp⟩
    rw [← h.1]
    simp
  | cons r rs ih =>
    intro s ms sf h
    simp only [runRecords] at h
    split at h
    · rename_i m hpr
      simp at h
    · rename_i em s1 hpr
      obtain ⟨hs1, hcase⟩ := processRecord_all_cases hpr
      subst hs1
      split at h
      case _ ms2 sf2 hrr =>
        simp only [Prod.mk.injEq, Except.ok.injEq] at h
        obtain ⟨hms, _⟩ := h
        obtain ⟨hms2, hall⟩ := ih hrr
        rcases hcase with ⟨hpass, hem⟩ | ⟨hpass, pkg, hem, hfetch⟩
        · subst hem
          rw [List.filter_cons_of_neg (by simp [hpass])]
          refine ⟨by rw [← hms, hms2]; rfl, hall⟩
        · subst hem
          rw [List.filter_cons_of_pos (by simp [hpass])]
          constructor
          · rw [← hms, hms2, List.filterMap_cons_some hfetch]
            rfl
          · intro r' hr'
            rcases List.mem_cons.mp hr' with rfl | hr2
            · rw [hfetch]
              rfl
            · exact hall r' hr2
      case _ hne =>
        exact absurd h (hne _ _)

theorem queryRun_def (st : DbState) (name : Str) (comps : List Comparator)
    (w : Bool) (opts : QueryOpts) :
    queryRun st name [comps] w opts =
      (match (if w then Except.ok none else (queryBounds comps).map some) with
       | .error m => ⟨.thrown m, st⟩
       | .ok bnds =>
         match runRecords opts.all opts.devDependencies (escapeName name) bnds st.store
           (scanRecords st.store
             ((if opts.all then str "!index!" else str "!index-latest!") ++
               (if opts.devDependencies then str "dev!" else str "dep!") ++
               escapeName name ++ ['!'] ++ opts.gtOpt.getD [])
             ((if opts.all then str "!index!" else str "!index-latest!") ++
               (if opts.devDependencies then str "dev!" else str "dep!") ++
               escapeName name ++ ['!', xffC])
             opts.limit) with
         | (.ok ms, s') => ⟨.ok ms, ⟨s', st.cache⟩⟩
         | (.error m, s') => ⟨.failed m, ⟨s', st.cache⟩⟩) := rfl

theorem queryRun_err_def (st : DbState) (name : Str) (comps : List Comparator)
    (w : Bool) (opts : QueryOpts) (m : Str)
    (hb : (if w then Except.ok none else (queryBounds comps).map some) = .error m) :
    queryRun st name [comps] w opts = ⟨.thrown m, st⟩ := by
  rw [queryRun_def, hb]

theorem queryRun_ok_def (st : DbState) (name : Str) (comps : List Comparator)
    (w : Bool) (opts : QueryOpts) (bnds : Option (Str × Str))
    (hb : (if w then Except.ok none else (queryBounds comps).map some) = .ok bnds) :
    queryRun st name [comps] w opts =
      (match runRecords opts.all opts.devDependencies (escapeName name) bnds st.store
           (scanRecords st.store
             ((if opts.all then str "!index!" else str "!index-latest!") ++
               (if opts.devDependencies then str "dev!" else str "dep!") ++
               escapeName name ++ ['!'] ++ opts.gtOpt.getD [])
             ((if opts.all then str "!index!" else str "!index-latest!") ++
               (if opts.devDependencies then str "dev!" else str "dep!") ++
               escapeName name ++ ['!', xffC])
             opts.limit) with
       | (.ok ms, s') => ⟨.ok ms, ⟨s', st.cache⟩⟩
       | (.error m, s') => ⟨.failed m, ⟨s', st.cache⟩⟩) := by
  rw [queryRun_def, hb]

theorem scan_latest_key_ne {s : Store} {kind g : Str} {lim : Option Nat} {name k : Str}
    (hk : strStarts (str "!index!") k = true) :
    ∀ r ∈ scanRecords s
        (str "!index-latest!" ++ kind ++ escapeName name ++ ['!'] ++ g)
        (str "!index-latest!" ++ kind ++ escapeName name ++ ['!', xffC]) lim,
      k ≠ r.1 := by
  intro r hr
  have hm := scanRecords_mem hr
  have hhi : str "!index-latest!" ++ kind ++ escapeName name ++ ['!', xffC] =
      (str "!index-latest!" ++ kind ++ escapeName name ++ ['!']) ++ [xffC] := by simp
  have hQ := strStarts_of_bounds hm.1 (hhi ▸ hm.2.1)
  have hrs : strStarts (str "!index-latest!") r.1 = true := by
    refine strStarts_trans ?_ hQ
    rw [show str "!index-latest!" ++ kind ++ escapeName name ++ ['!'] =
      str "!index-latest!" ++ (kind ++ escapeName name ++ ['!']) from by simp]
    exact strStarts_self_append _ _
  exact ne_of_starts_incompat hk hrs (by decide) (by decide)

theorem applyBatch_preserves_isSome {k : Str} :
    ∀ {ops : List (Str × Value)} (s : Store), (alGet k s).isSome = true →
      (alGet k (applyBatch s ops)).isSome = true := by
  intro ops
  induction ops with
  | nil => intro s h; exact h
  | cons o t ih =>
    intro s h
    show (alGet k (applyBatch (alPut o.1 o.2 s) t)).isSome = true
    apply ih
    by_cases he : o.1 = k
    · rw [← he, alGet_alPut_self]
      rfl
    · rw [alGet_alPut_other (fun hx => he hx.symm)]
      exact h

/-- C8: per-version index stability — `store` never removes a present key;
`query` never changes any `!index!`-prefixed key; and an `all = true` query
returns exactly the manifests of the overlap-filtered scan candidates,
unconditionally (no re-validation and no cleanup delete on that path). -/
theorem c8_per_version_index_stable :
    (∀ (st : DbState) (pkg : Manifest) (k : Str),
      (alGet k st.store).isSome = true →
      (alGet k (storeOp st pkg).store).isSome = true) ∧
    (∀ (st : DbState) (name : Str) (qsets : List (List Comparator)) (w : Bool)
       (opts : QueryOpts) (k : Str), strStarts (str "!index!") k = true →
      alGet k (queryRun st name qsets w opts).state.store = alGet k st.store) ∧
    (∀ (st : DbState) (name : Str) (comps : List Comparator) (w : Bool)
       (opts : QueryOpts) (ms : List Manifest) (st' : DbState)
       (bnds : Option (Str × Str)),
      opts.all = true →
      (if w then Except.ok none else (queryBounds comps).map some) = .ok bnds →
      queryRun st name [comps] w opts = ⟨.ok ms, st'⟩ →
      st'.store = st.store ∧
      ms = ((scanRecords st.store
          (str "!index!" ++ (if opts.devDependencies then str "dev!" else str "dep!") ++
            escapeName name ++ ['!'] ++ opts.gtOpt.getD [])
          (str "!index!" ++ (if opts.devDependencies then str "dev!" else str "dep!") ++
            escapeName name ++ ['!', xffC])
          opts.limit).filter (recPasses bnds)).filterMap (fetchAll st.store) ∧
      ∀ r ∈ (scanRecords st.store
          (str "!index!" ++ (if opts.devDependencies then str "dev!" else str "dep!") ++
            escapeName name ++ ['!'] ++ opts.gtOpt.getD [])
          (str "!index!" ++ (if opts.devDependencies then str "dev!" else str "dep!") ++
            escapeName name ++ ['!', xffC])
          opts.limit).filter (recPasses bnds),
        (fetchAll st.store r).isSome = true) := by
  refine ⟨?_, ?_, ?_⟩
  · intro st pkg k h
    rw [storeOp_def]
    exact applyBatch_preserves_isSome st.store h
  · intro st name qsets w opts k hk
    rcases qsets with _ | ⟨comps, rest⟩
    · rfl
    rcases rest with _ | ⟨c2, rest2⟩
    · cases hbe : (if w then Except.ok none else (queryBounds comps).map some :
          Except Str (Option (Str × Str))) with
      | error m =>
        rw [queryRun_err_def st name comps w opts m hbe]
      | ok bnds =>
        rw [queryRun_ok_def st name comps w opts bnds hbe]
        split
        · rename_i ms2 sf2 hrr
          show alGet k sf2 = alGet k st.store
          cases hall : opts.all with
          | true =>
            rw [hall] at hrr
            rw [runRecords_all_state hrr]
          | false =>
            rw [hall, if_neg (by simp)] at hrr
            exact runRecords_false_frame hrr k (scan_latest_key_ne hk)
        · rename_i m2 sf2 hrr
          show alGet k sf2 = alGet k st.store
          cases hall : opts.all with
          | true =>
            rw [hall] at hrr
            rw [runRecords_all_state hrr]
          | false =>
            rw [hall, if_neg (by simp)] at hrr
            exact runRecords_false_frame hrr k (scan_latest_key_ne hk)
    · rfl
  · intro st name comps w opts ms st' bnds hall hb hq
    rw [queryRun_ok_def st name comps w opts bnds hb, hall, if_pos rfl] at hq
    split at hq
    · rename_i ms2 sf2 hrr
      simp only [QueryResult.mk.injEq, QOutcome.ok.injEq] at hq
      obtain ⟨hms, hst⟩ := hq
      have hsf := runRecords_all_state hrr
      obtain ⟨hms2, hallr⟩ := runRecords_all_ok hrr
      subst hst
      refine ⟨hsf, ?_, hallr⟩
      rw [← hms, hms2]
    · rename_i m2 sf2 hrr
      exact absurd hq (by simp)

/-- C8 witness: at concrete inputs — storing `a@1.0.0` over a store holding an
`!index!`-keyed record keeps that key present; a latest-mode query leaves the
`!index!` key untouched; and an `all = true` wildcard query over the
one-record fixture returns its manifest with the store unchanged. -/
theorem c8_witness :
    ((alGet (str "!index!x")
        (storeOp ⟨[(str "!index!x", Value.version ⟨1, 0, 0⟩)], []⟩
          ⟨str "a", ⟨1, 0, 0⟩, [], []⟩).store).isSome = true) ∧
    (alGet (str "!index!x")
        (queryRun ⟨[(str "!index!x", Value.version ⟨1, 0, 0⟩)], []⟩ (str "b")
          [[⟨Op.ge, ⟨1, 0, 0⟩⟩]] false ⟨false, false, none, none⟩).state.store =
      alGet (str "!index!x") ([(str "!index!x", Value.version ⟨1, 0, 0⟩)] : Store)) ∧
    ((⟨fixStore, []⟩ : DbState).store = fixStore ∧
      [fixPkg] = ((scanRecords fixStore
          (str "!index!" ++ str "dep!" ++ escapeName (str "b") ++ ['!'] ++ [])
          (str "!index!" ++ str "dep!" ++ escapeName (str "b") ++ ['!', xffC])
          none).filter (recPasses none)).filterMap (fetchAll fixStore) ∧
      ∀ r ∈ (scanRecords fixStore
          (str "!index!" ++ str "dep!" ++ escapeName (str "b") ++ ['!'] ++ [])
          (str "!index!" ++ str "dep!" ++ escapeName (str "b") ++ ['!', xffC])
          none).filter (recPasses none),
        (fetchAll fixStore r).isSome = true) :=
  ⟨c8_per_version_index_stable.1 ⟨[(str "!index!x", Value.version ⟨1, 0, 0⟩)], []⟩
      ⟨str "a", ⟨1, 0, 0⟩, [], []⟩ (str "!index!x") rfl,
   c8_per_version_index_stable.2.1 ⟨[(str "!index!x", Value.version ⟨1, 0, 0⟩)], []⟩
      (str "b") [[⟨Op.ge, ⟨1, 0, 0⟩⟩]] false ⟨false, false, none, none⟩
      (str "!index!x") rfl,
   c8_per_version_index_stable.2.2 ⟨fixStore, []⟩ (str "b") [] true
      ⟨true, false, none, none⟩ [fixPkg] ⟨fixStore, []⟩ none rfl rfl rfl⟩

end DependencyDb
